import Mathlib

/-!
Verification of the paragraph segmentation and bilingual reconstruction
engine of `src/doc/translate.py`.

Texts are modelled as `List Char` (Python `str`).  Python's default
`str.strip`/`lstrip`/`rstrip` remove Unicode whitespace; the relevant
whitespace characters are modelled by `isPySpace`.  Fallible operations
(the translation backend) are modelled with `Option`.  Each definition
is a direct translation of the correspondingly named Python function.
-/

namespace DocTranslate

abbrev Str := List Char

/-- Python `str.isspace` characters (the ones `str.strip()` removes). -/
def isPySpace (c : Char) : Bool :=
  c = ' ' || c = '\t' || c = '\n' || c = '\r' ||
  c.toNat = 0x0b || c.toNat = 0x0c || c.toNat = 0x1c || c.toNat = 0x1d ||
  c.toNat = 0x1e || c.toNat = 0x1f || c.toNat = 0x85 || c.toNat = 0xa0 ||
  c.toNat = 0x1680 || (0x2000 ≤ c.toNat && c.toNat ≤ 0x200a) ||
  c.toNat = 0x2028 || c.toNat = 0x2029 || c.toNat = 0x205f || c.toNat = 0x3000

/-- Python `text.lstrip()`. -/
def pyLStrip (l : Str) : Str := l.dropWhile isPySpace

/-- Python `text.rstrip()`. -/
def pyRStrip (l : Str) : Str := (l.reverse.dropWhile isPySpace).reverse

/-- Python `text.strip()`. -/
def pyStrip (l : Str) : Str := pyLStrip (pyRStrip l)

/-- Python `"x".join(lines)` with separator a single char. -/
def joinSep (sep : Char) : List Str → Str
  | [] => []
  | [l] => l
  | l :: ls => l ++ sep :: joinSep sep ls

/-- Python `" ".join lines`. -/
def joinSpace (ls : List Str) : Str := joinSep ' ' ls

/-- Python `"\n".join lines`. -/
def joinNL (ls : List Str) : Str := joinSep '\n' ls

/-- First index at which `needle` occurs as a substring of `hay`. -/
def pyFindNat : Str → Str → Option Nat
  | [], needle => if needle = [] then some 0 else none
  | h :: t, needle =>
      if needle.isPrefixOf (h :: t) then some 0
      else (pyFindNat t needle).map (· + 1)

/-- Python `hay.find(needle)` (−1 when absent). -/
def pyFind (hay needle : Str) : Int :=
  match pyFindNat hay needle with
  | some k => (k : Int)
  | none => -1

end DocTranslate

namespace DocTranslate

/-! ## TextDetector (`src/doc/translate.py`, class `TextDetector`) -/

/-- `TextDetector.is_chinese`: text contains a CJK character in
U+4E00..U+9FFF. -/
def is_chinese (l : Str) : Bool :=
  l.any (fun c => 0x4e00 ≤ c.toNat && c.toNat ≤ 0x9fff)

/-- Maximal leading run of decimal digits (`\d+`, greedy); `none` when the
text does not start with a digit. -/
def takeDigits1 (l : Str) : Option (Str × Str) :=
  let ds := l.takeWhile Char.isDigit
  if ds = [] then none else some (ds, l.dropWhile Char.isDigit)

/-- Match a literal character. -/
def matchLit (c : Char) : Str → Option Str
  | [] => none
  | h :: t => if h = c then some t else none

/-- Match `\d+\.` returning (consumed, rest). -/
def matchNumDot (l : Str) : Option (Str × Str) :=
  match takeDigits1 l with
  | none => none
  | some (ds, r) =>
    match matchLit '.' r with
    | none => none
    | some r2 => some (ds ++ ['.'], r2)

/-- Regex `^(\d+\.\d+\.\d+\.\d+)`. -/
def matchP4seg (l : Str) : Option Str :=
  match matchNumDot l with
  | none => none
  | some (a, r) =>
    match matchNumDot r with
    | none => none
    | some (b, r2) =>
      match matchNumDot r2 with
      | none => none
      | some (c, r3) =>
        match takeDigits1 r3 with
        | none => none
        | some (d, _) => some (a ++ b ++ c ++ d)

/-- Regex `^(\d+\.\d+)`. -/
def matchP2seg (l : Str) : Option Str :=
  match matchNumDot l with
  | none => none
  | some (a, r) =>
    match takeDigits1 r with
    | none => none
    | some (d, _) => some (a ++ d)

/-- Regex `^(\d+\.)`. -/
def matchP1seg (l : Str) : Option Str :=
  match matchNumDot l with
  | none => none
  | some (a, _) => some a

/-- Backtracking for the middle of `^(\d+\.\d+.\d+)` (note the UNESCAPED
second dot in the source, which matches any character except newline):
try a digit run of length `k`, then any char, then `\d+`; on failure
retry with `k - 1`.  `l` starts with at least `k` digits when called. -/
def midAnyAux : Nat → Str → Option Str
  | 0, _ => none
  | k + 1, l =>
    let pre := l.take (k + 1)
    match l.drop (k + 1) with
    | c :: rest =>
        if c ≠ '\n' then
          match takeDigits1 rest with
          | some (d2, _) => some (pre ++ c :: d2)
          | none => midAnyAux k l
        else midAnyAux k l
    | [] => midAnyAux k l

/-- Regex `^(\d+\.\d+.\d+)` from the source — the second dot is unescaped,
so it matches `\d+`, a literal `'.'`, a greedy digit run (with
backtracking), ANY character, then `\d+`. -/
def matchP3segLoose (l : Str) : Option Str :=
  match matchNumDot l with
  | none => none
  | some (a, r) =>
    let n := (r.takeWhile Char.isDigit).length
    match midAnyAux n r with
    | none => none
    | some mid => some (a ++ mid)

/-- Strict 3-segment pattern `^(\d+\.\d+\.\d+)` (the pattern the source
comment `# 1.2.3` documents). -/
def matchP3segStrict (l : Str) : Option Str :=
  match matchNumDot l with
  | none => none
  | some (a, r) =>
    match matchNumDot r with
    | none => none
    | some (b, r2) =>
      match takeDigits1 r2 with
      | none => none
      | some (d, _) => some (a ++ b ++ d)

/-- Python `s.rstrip('.')`. -/
def rstripDots (l : Str) : Str := (l.reverse.dropWhile (· = '.')).reverse

/-- `TextDetector.get_step_number`: try the 4-, 3-, 2-, 1-segment dotted
numeric patterns (in that order) against the left-trimmed text; return the
first match with trailing dots removed, else `""`.  The 3-segment pattern
is the source's `^(\d+\.\d+.\d+)` with its unescaped middle dot. -/
def get_step_number (text : Str) : Str :=
  let raw := pyLStrip text
  match matchP4seg raw with
  | some g => rstripDots g
  | none =>
    match matchP3segLoose raw with
    | some g => rstripDots g
    | none =>
      match matchP2seg raw with
      | some g => rstripDots g
      | none =>
        match matchP1seg raw with
        | some g => rstripDots g
        | none => []

/-- Modelled from the spec: `extractNumberingPrefix` as the specification
words it — the same cascade but where every pattern matches "only digits
and dots", i.e. the 3-segment pattern is the strict `^(\d+\.\d+\.\d+)`. -/
def spec_extract_numbering (text : Str) : Str :=
  let raw := pyLStrip text
  match matchP4seg raw with
  | some g => rstripDots g
  | none =>
    match matchP3segStrict raw with
    | some g => rstripDots g
    | none =>
      match matchP2seg raw with
      | some g => rstripDots g
      | none =>
        match matchP1seg raw with
        | some g => rstripDots g
        | none => []

/-- Split a text at its first colon (half- or full-width): returns
(before, colon, after). -/
def firstColonSplit : Str → Option (Str × Char × Str)
  | [] => none
  | c :: rest =>
      if c = ':' ∨ c = '：' then some ([], c, rest)
      else
        match firstColonSplit rest with
        | some (b, k, a) => some (c :: b, k, a)
        | none => none

/-- `TextDetector.check_colon_format`: regex
`^([^:：]+)[：:](.*)$` against the stripped text.  The label must be
non-empty; `.` does not match a newline, and `$` only matches at the end,
so the part after the first colon must be newline-free.  Returns
(has_colon, has_content_after_colon, label.strip(), remainder.strip()). -/
def check_colon_format (text : Str) : Bool × Bool × Str × Str :=
  let s := pyStrip text
  match firstColonSplit s with
  | some (b, _, a) =>
      if b ≠ [] ∧ ¬ ('\n' ∈ a) then
        (true, pyStrip a ≠ [], pyStrip b, pyStrip a)
      else (false, false, [], [])
  | none => (false, false, [], [])

/-- `TextDetector.has_long_spaces_in_runs` on the joined run text:
(has leading space/tab, weighted count with tab = 4). -/
def has_long_spaces (raw : Str) : Bool × Nat :=
  if raw = [] then (false, 0)
  else
    let lead := raw.takeWhile (fun c => c = ' ' || c = '\t')
    if lead.length > 0 then
      (true, (lead.map (fun c => if c = '\t' then 4 else 1)).sum)
    else (false, 0)

end DocTranslate

namespace DocTranslate

/-! ## Translation engine (`TranslationEngine`) -/

/-- The run-wide read-only lookup tables and the translation backend.
The backend (`GoogleTranslator.translate`) is synchronous and may raise;
a raised exception is modelled by `none`. -/
structure TransEnv where
  fixedMap : List (Str × Str)
  pcbTerms : List (Str × Str)
  backend : Str → Option Str

/-- Python `re.split(r'[，,]', s)`. -/
def splitCommas (s : Str) : List Str :=
  List.splitOnP (fun c => c = ',' || c = '，') s

/-- `TranslationEngine._check_pcb_terms`: exact match on the term's
`traditional` field, else match against its comma-separated items. -/
def check_pcb_terms (env : TransEnv) (text : Str) : Option Str :=
  env.pcbTerms.findSome? fun (key, trad) =>
    if trad = text then some key
    else if (splitCommas trad).any (fun item => pyStrip item = text) then some key
    else none

/-- `TranslationEngine._translate_with_llm`: call the backend, return the
stripped result, and on an exception return the original text unchanged. -/
def translate_with_llm (env : TransEnv) (text : Str) : Str :=
  match env.backend text with
  | some translated => pyStrip translated
  | none => text

/-- `TranslationEngine.translate_text`: non-Chinese or blank text is
returned unchanged; otherwise the fixed-translation map, then the PCB-term
dictionary, then the backend. -/
def translate_text (env : TransEnv) (text : Str) : Str :=
  if text = [] ∨ pyStrip text = [] ∨ ¬ is_chinese text then text
  else
    let ts := pyStrip text
    match (env.fixedMap.find? (fun e => e.1 = ts)).map (·.2) with
    | some v => v
    | none =>
      match check_pcb_terms env ts with
      | some v => v
      | none => translate_with_llm env text

/-! ## Paragraphs and runs (the document object model) -/

/-- A run: a text span, possibly carrying a Drawing (`w:drawing`/`w:pict`).
`WordDocumentHelper.has_picture` is the `drawing` flag. -/
structure Run where
  text : Str
  drawing : Bool
deriving DecidableEq

/-- A paragraph: an ordered sequence of runs. -/
structure Para where
  runs : List Run
deriving DecidableEq

/-- `paragraph.text`: concatenation of the run texts. -/
def Para.text (p : Para) : Str := (p.runs.map Run.text).flatten

/-- Clear one run's text (used by the branches that do
`run.text = ""` unconditionally). -/
def clearRun (r : Run) : Run := { r with text := [] }

/-- Clear a run's text unless it carries a Drawing. -/
def clearNonDrawingRun (r : Run) : Run :=
  if r.drawing then r else { r with text := [] }

/-- `WordDocumentHelper.clear_paragraph_text_keep_images`. -/
def clear_paragraph_text_keep_images (p : Para) : Para :=
  ⟨p.runs.map clearNonDrawingRun⟩

/-- `paragraph.add_run(text)` produces a plain text run. -/
def mkRun (t : Str) : Run := ⟨t, false⟩

/-- The paragraph `WordDocumentHelper.add_english_below` creates: a single
run holding the English text (font/size/alignment cosmetics are out of
the modelled core). -/
def mkEnglishPara (t : Str) : Para := ⟨[mkRun t]⟩

/-! ## ParagraphProcessor: grouping pass -/

/-- One recorded member of a group (`{"para_index", "full_text",
"space_count"}`; the `'para'` reference is recovered from `para_index`). -/
structure GMember where
  para_index : Nat
  full_text : Str
  space_count : Nat
deriving DecidableEq

/-- A finalized group: `{"group_id", "paragraphs", "merged_text"}`. -/
structure Group where
  group_id : Nat
  members : List GMember
  merged_text : Str
deriving DecidableEq

/-- `ParagraphProcessor.merge_group_text`: with any numbered member,
concatenate the left-stripped member texts with no separator, else join
them with single spaces. -/
def merge_group_text (members : List GMember) : Str :=
  if members = [] then []
  else
    let lines := members.map (fun m => pyLStrip m.full_text)
    let isStep := members.any (fun m => get_step_number m.full_text ≠ [])
    if isStep then
      match lines with
      | [] => []
      | l0 :: rest => l0 ++ (rest.map pyLStrip).flatten
    else joinSpace lines

/-- Grouping-pass state: `state.continuous_abnormal_groups` and
`state.current_group`. -/
structure GroupingState where
  groups : List Group
  current : Option (Nat × List GMember)
deriving DecidableEq

/-- Finalize `current_group`: compute its merged text and append it. -/
def finalizeCurrent (st : GroupingState) : GroupingState :=
  match st.current with
  | none => st
  | some (gid, mems) =>
      { groups := st.groups ++ [⟨gid, mems, merge_group_text mems⟩]
        current := none }

/-- `ParagraphProcessor.record_long_space_paragraph` for a paragraph with
text `raw` at index `i`. -/
def record_long_space_paragraph (st : GroupingState) (i : Nat) (raw : Str) :
    GroupingState :=
  let hasAb := (has_long_spaces raw).1
  let step := get_step_number raw
  if ¬ hasAb then finalizeCurrent st
  else
    let member : GMember := ⟨i, pyStrip raw, (has_long_spaces raw).2⟩
    if step ≠ [] then
      let st1 := finalizeCurrent st
      { st1 with current := some (st1.groups.length + 1, [member]) }
    else
      match st.current with
      | some (gid, mems) => { st with current := some (gid, mems ++ [member]) }
      | none => { st with current := some (st.groups.length + 1, [member]) }

/-- Step 1 of `DocumentTranslator.translate_document`: scan the document's
paragraphs in order, recording those with non-blank Chinese text, then
finalize the last open group. -/
def step1_groups (paras : List Para) : List Group :=
  let st := paras.enum.foldl
    (fun st (ip : Nat × Para) =>
      let t := ip.2.text
      if pyStrip t ≠ [] ∧ is_chinese t then
        record_long_space_paragraph st ip.1 t
      else st)
    ⟨[], none⟩
  (finalizeCurrent st).groups

end DocTranslate

namespace DocTranslate

/-! ## BilingualTranslator: paragraph orchestration

The document body is a sequence of block elements.  For the paragraph
pass, each top-level paragraph is keyed by its index in the pristine
`doc.paragraphs` enumeration (`para_index`); paragraphs inserted during
the pass carry no key, exactly as inserted `w:p` elements are not part of
the pristine enumeration. -/

/-- A table cell textbox paragraph run (`w:r` with its `w:t` and `w:sz`). -/
structure TRun where
  text : Str
  sz : Option Nat
deriving DecidableEq

/-- A textbox paragraph (`w:p` inside `w:txbxContent`): runs, the
`w:spacing w:line` value (line rule is always `exact` when set by this
code) and the `w:jc` alignment. -/
structure TPara where
  runs : List TRun
  lineSpacing : Option Nat
  jc : Option Str
deriving DecidableEq

/-- A textbox (`w:txbxContent`). -/
structure Textbox where
  paras : List TPara
deriving DecidableEq

/-- A table cell: its paragraphs and the textboxes nested anywhere under
the cell (`cell._element.findall('.//w:txbxContent')`). -/
structure Cell where
  paras : List Para
  textboxes : List Textbox
deriving DecidableEq

/-- A table.  `id` models the XML element identity used by
`state.flowchart_original_tables` (a `deepcopy` yields a fresh id). -/
structure Table where
  id : Nat
  rows : List (List Cell)
deriving DecidableEq

/-- A body element: a paragraph, a table, or the page-break paragraph
inserted by `WordDocumentHelper.insert_page_break_after`. -/
inductive BElem
  | par (p : Para)
  | tbl (t : Table)
  | pbreak
deriving DecidableEq

/-- Keyed body: top-level paragraphs carry their pristine `para_index`. -/
abbrev KBody := List (Option Nat × BElem)

/-- Key the paragraphs of a body by their `doc.paragraphs` position. -/
def mkKeyedAux : Nat → List BElem → KBody
  | _, [] => []
  | n, .par p :: rest => (some n, .par p) :: mkKeyedAux (n + 1) rest
  | n, e :: rest => (none, e) :: mkKeyedAux n rest

def mkKeyed (body : List BElem) : KBody := mkKeyedAux 0 body

def unkey (kb : KBody) : List BElem := kb.map Prod.snd

/-- The paragraphs of a body, in `doc.paragraphs` order. -/
def docParas (body : List BElem) : List Para :=
  body.filterMap fun e =>
    match e with
    | .par p => some p
    | _ => none

/-- Current paragraph carrying pristine key `i`. -/
def getParaAt (kb : KBody) (i : Nat) : Option Para :=
  match kb.find? (fun e => e.1 = some i) with
  | some (_, .par p) => some p
  | _ => none

/-- Apply `f` to the element keyed `i` when it is a paragraph. -/
def updElem (i : Nat) (f : Para → Para) (e : Option Nat × BElem) :
    Option Nat × BElem :=
  if e.1 = some i then
    match e.2 with
    | .par p => (e.1, .par (f p))
    | _ => e
  else e

/-- Apply `f` to the paragraph keyed `i` (in-place mutation of the
paragraph object with pristine index `i`). -/
def updIdx (kb : KBody) (i : Nat) (f : Para → Para) : KBody :=
  kb.map (updElem i f)

/-- Insert a new sibling paragraph immediately after the element keyed
`i` (`parent.insert(para_index + 1, new_p)`). -/
def insertAfterIdx (kb : KBody) (i : Nat) (q : Para) : KBody :=
  kb.flatMap fun e =>
    if e.1 = some i then [e, (none, .par q)] else [e]

/-- `BilingualTranslator._extract_content_after_number`: find the step
number, skip it and a run of separator characters, return the rest.
`content_start` is non-negative whenever `step` is non-empty (and in all
reachable calls `step` is a prefix of `text`). -/
def extract_content_after_number (text step : Str) : Str :=
  let contentStart : Int := pyFind text step + step.length
  (text.drop contentStart.toNat).dropWhile
    (fun c => c = '.' || c = ' ' || c = ':' || c = '：' || c = '　' || c = '\t')

/-- Find the first unconsumed group containing `para_index = i`, together
with whether `i` is the group's first (seed) member. -/
def findBelonging (groups : List Group) (consumed : List Nat) (i : Nat) :
    Option (Group × Bool) :=
  match groups.find? (fun g =>
      ¬ (g.group_id ∈ consumed) ∧ g.members.any (fun m => m.para_index = i)) with
  | some g =>
      some (g, match g.members with
               | m0 :: _ => m0.para_index = i
               | [] => false)
  | none => none

/-- `BilingualTranslator._translate_colon_no_content`: rewrite the single
paragraph in place as `indent + label + "(" + translated + ")" + colon`,
where the colon is `'：'` when the raw text contains one, else `':'`. -/
def translate_colon_no_content (env : TransEnv) (p : Para) (raw colonPart : Str) :
    Para :=
  let translated := translate_text env colonPart
  let hasImages := p.runs.any Run.drawing
  let origColon : Char := if '：' ∈ raw then '：' else ':'
  let indent : Str := List.replicate (raw.takeWhile isPySpace).length ' '
  let newText := indent ++ colonPart ++ '(' :: translated ++ ')' :: [origColon]
  if hasImages then ⟨p.runs.map clearNonDrawingRun ++ [mkRun newText]⟩
  else ⟨p.runs.map clearRun ++ [mkRun newText]⟩

/-- `BilingualTranslator._translate_colon_with_content`: the English
sibling paragraph added below the original. -/
def translate_colon_with_content (env : TransEnv) (raw stripped : Str) : Para :=
  let step := get_step_number stripped
  let indent : Str := List.replicate (raw.takeWhile isPySpace).length ' '
  if step ≠ [] then
    mkEnglishPara (indent ++ translate_text env (extract_content_after_number stripped step))
  else
    mkEnglishPara (indent ++ translate_text env stripped)

/-- `BilingualTranslator._translate_no_colon`: the English sibling
paragraph added below the original. -/
def translate_no_colon (env : TransEnv) (raw stripped : Str) : Para :=
  let step := get_step_number stripped
  let indent : Str := List.replicate (raw.takeWhile isPySpace).length ' '
  if step ≠ [] then
    mkEnglishPara (indent ++ translate_text env (extract_content_after_number stripped step))
  else
    mkEnglishPara (indent ++ translate_text env stripped)

/-- `BilingualTranslator._translate_regular_paragraph`: returns the
(possibly rewritten) paragraph and the optional English sibling to be
inserted immediately below it. -/
def translate_regular_paragraph (env : TransEnv) (p : Para) :
    Para × Option Para :=
  let raw := p.text
  let stripped := pyStrip raw
  let cf := check_colon_format stripped
  if cf.1 ∧ ¬ cf.2.1 then
    (translate_colon_no_content env p raw cf.2.2.1, none)
  else if cf.1 ∧ cf.2.1 then
    (p, some (translate_colon_with_content env raw stripped))
  else
    (p, some (translate_no_colon env raw stripped))

/-- The seed paragraph rewrite of
`BilingualTranslator._translate_grouped_paragraphs`: with images, clear
the non-Drawing runs and append the merged text (without the indent);
without images, clear all runs and append `indent ++ merged`. -/
def groupedSeedRewrite (p : Para) (indent merged : Str) : Para :=
  if p.runs.any Run.drawing then
    ⟨p.runs.map clearNonDrawingRun ++ [mkRun merged]⟩
  else
    ⟨p.runs.map clearRun ++ [mkRun (indent ++ merged)]⟩

/-- The content sent to the backend for a group: the merged text with the
seed's step number (and following separators) stripped. -/
def groupedPureContent (g : Group) : Str :=
  let merged := merge_group_text g.members
  let step :=
    match g.members with
    | m0 :: _ => get_step_number m0.full_text
    | [] => []
  if step ≠ [] then extract_content_after_number merged step else merged

/-- `BilingualTranslator._translate_grouped_paragraphs` for the seed
paragraph `p` keyed `i`: rewrite the seed with the merged Chinese text,
insert the translated sibling immediately after it, clear the text (not
Drawings) of every non-seed member, and mark the group consumed. -/
def translate_grouped_paragraphs (env : TransEnv) (consumed : List Nat)
    (kb : KBody) (i : Nat) (p : Para) (g : Group) : List Nat × KBody :=
  let merged := merge_group_text g.members
  let indent : Str := List.replicate (p.text.takeWhile isPySpace).length ' '
  let newSeed := groupedSeedRewrite p indent merged
  let translated := translate_text env (groupedPureContent g)
  let finalEnglish := indent ++ pyStrip translated
  let kb1 := updIdx kb i (fun _ => newSeed)
  let kb2 := insertAfterIdx kb1 i (mkEnglishPara finalEnglish)
  let kb3 := g.members.tail.foldl
    (fun b m => updIdx b m.para_index clear_paragraph_text_keep_images) kb2
  (consumed ++ [g.group_id], kb3)

/-- `BilingualTranslator.translate_paragraph` for the paragraph keyed `i`
with current content `p`. -/
def translate_paragraph (env : TransEnv) (groups : List Group)
    (consumed : List Nat) (kb : KBody) (i : Nat) (p : Para) :
    List Nat × KBody :=
  if pyStrip p.text = [] ∨ ¬ is_chinese p.text then (consumed, kb)
  else
    match findBelonging groups consumed i with
    | some (_, false) => (consumed, kb)
    | some (g, true) => translate_grouped_paragraphs env consumed kb i p g
    | none =>
      let pr := translate_regular_paragraph env p
      let kb1 := updIdx kb i (fun _ => pr.1)
      match pr.2 with
      | some q => (consumed, insertAfterIdx kb1 i q)
      | none => (consumed, kb1)

/-- One iteration of step 2 of `translate_document`
(`if paragraph.text.strip(): translate_paragraph(paragraph, i)`). -/
def step2_step (env : TransEnv) (groups : List Group)
    (st : List Nat × KBody) (i : Nat) : List Nat × KBody :=
  match getParaAt st.2 i with
  | some p => if pyStrip p.text ≠ [] then translate_paragraph env groups st.1 st.2 i p else st
  | none => st

/-- Step 2 of `translate_document`: visit the pristine paragraph indices
in order. -/
def step2_paragraphs (env : TransEnv) (groups : List Group) (kb : KBody)
    (n : Nat) : List Nat × KBody :=
  (List.range n).foldl (step2_step env groups) ([], kb)

end DocTranslate

namespace DocTranslate

/-! ## Table translation (`BilingualTranslator.translate_table`) -/

/-- The filter collecting a cell's translatable paragraphs. -/
def qualPara (p : Para) : Bool := pyStrip p.text ≠ [] && is_chinese p.text

/-- The loop body of `_translate_numbered_table_cell`, re-attaching the
original item numbers positionally
(`for i, num in enumerate(all_numbers): if i < len(translated_parts)`). -/
def attachNumbers : List Str → List Str → List Str
  | [], _ => []
  | _ :: _, [] => []
  | n :: ns, q :: qs =>
      (if n ≠ [] then n ++ '.' :: q else q) :: attachNumbers ns qs

/-- The composed multi-line English of
`BilingualTranslator._translate_numbered_table_cell`: strip prefixes,
join with single spaces, translate once, split the translation on the
sentence-terminating `'.'`, strip and drop blank segments, re-attach the
item numbers positionally, and append any excess segments unlabeled. -/
def numbered_cell_english (env : TransEnv) (qual : List Para) : Str :=
  let items := qual.map fun p =>
    let s := pyStrip p.text
    let n := get_step_number s
    if n ≠ [] then (extract_content_after_number s n, n) else (s, ([] : Str))
  let merged := joinSpace (items.map Prod.fst)
  let translated := translate_text env merged
  let parts := ((List.splitOn '.' translated).map pyStrip).filter (· ≠ [])
  let numbers := items.map Prod.snd
  let lines := attachNumbers numbers parts ++
    (if numbers.length < parts.length then parts.drop numbers.length else [])
  joinNL lines

/-- Insert `e` after the last paragraph satisfying `qualPara`
(`add_english_below(paragraphs[-1], ...)` targets the last member of the
filtered list); unchanged when no paragraph qualifies (unreachable). -/
def insertAfterLastQualRev : List Para → Para → List Para
  | [], _ => []
  | p :: rest, e =>
      if qualPara p then e :: p :: rest else p :: insertAfterLastQualRev rest e

def insertAfterLastQual (paras : List Para) (e : Para) : List Para :=
  (insertAfterLastQualRev paras.reverse e).reverse

/-- `translate_paragraph(p)` on a table-cell paragraph: `para_index` is
`None`, so the paragraph can belong to no group and is handled by the
regular path, producing the rewritten paragraph and/or its sibling. -/
def cell_regular_paragraph (env : TransEnv) (p : Para) : List Para :=
  if pyStrip p.text = [] ∨ ¬ is_chinese p.text then [p]
  else
    match translate_regular_paragraph env p with
    | (p', some q) => [p', q]
    | (p', none) => [p']

/-- `BilingualTranslator.translate_table` on one cell. -/
def translate_table_cell (env : TransEnv) (c : Cell) : Cell :=
  let qual := c.paras.filter qualPara
  if qual = [] then c
  else if qual.any (fun p => get_step_number p.text ≠ []) ∧ qual.length > 1 then
    { c with paras :=
        insertAfterLastQual c.paras (mkEnglishPara (numbered_cell_english env qual)) }
  else
    { c with paras := c.paras.flatMap fun p =>
        if qualPara p then cell_regular_paragraph env p else [p] }

/-- `BilingualTranslator.translate_table`. -/
def translate_table (env : TransEnv) (t : Table) : Table :=
  { t with rows := t.rows.map (List.map (translate_table_cell env)) }

/-! ## Textboxes -/

def getRunText : List TRun → Nat → Str
  | [], _ => []
  | r :: _, 0 => r.text
  | _ :: rs, k + 1 => getRunText rs k

def setRunText : List TRun → Nat → Str → List TRun
  | [], _, _ => []
  | r :: rs, 0, s => { r with text := s } :: rs
  | r :: rs, k + 1, s => r :: setRunText rs k s

/-- The `k`-th `w:t` node of a textbox, in document order. -/
def getTextInParas : List TPara → Nat → Str
  | [], _ => []
  | p :: ps, k =>
      if k < p.runs.length then getRunText p.runs k
      else getTextInParas ps (k - p.runs.length)

def setTextInParas : List TPara → Nat → Str → List TPara
  | [], _, _ => []
  | p :: ps, k, s =>
      if k < p.runs.length then { p with runs := setRunText p.runs k s } :: ps
      else p :: setTextInParas ps (k - p.runs.length) s

def textboxNumTexts (tb : Textbox) : Nat := (tb.paras.map (·.runs.length)).sum

/-- The normalization applied after translating Chinese textbox text:
every run's font size (`w:sz`) set to 11 half-points, every paragraph's
line spacing to 130/exact and its alignment to center
(`_adjust_textbox_formatting` and the identical inline block of
`clone_and_translate_flowchart`). -/
def normalizeTextbox (tb : Textbox) : Textbox :=
  ⟨tb.paras.map fun p =>
    { runs := p.runs.map fun r => { r with sz := some 11 }
      lineSpacing := some 130
      jc := some "center".data }⟩

/-- One `w:t` node of the textbox translation loop: skip blank text,
translate, keep the original on a falsy result, and normalize the whole
textbox when the original text was Chinese. -/
def translate_textbox_step (env : TransEnv) (tb : Textbox) (k : Nat) : Textbox :=
  let t := getTextInParas tb.paras k
  if pyStrip t ≠ [] then
    let tr := translate_text env t
    let tb1 := if tr ≠ [] then Textbox.mk (setTextInParas tb.paras k tr) else tb
    if is_chinese t then normalizeTextbox tb1 else tb1
  else tb

/-- Translate every `w:t` node of a textbox, in order. -/
def translate_textbox (env : TransEnv) (tb : Textbox) : Textbox :=
  (List.range (textboxNumTexts tb)).foldl (translate_textbox_step env) tb

/-! ## FlowchartHandler -/

/-- `FlowchartHandler.count_textboxes_in_table`. -/
def count_textboxes_in_table (t : Table) : Nat :=
  (t.rows.map fun row => (row.map fun c => c.textboxes.length).sum).sum

/-- `FlowchartHandler.is_flowchart_table`
(`TranslationConfig.FLOWCHART_TEXTBOX_THRESHOLD = 3`). -/
def is_flowchart_table (t : Table) : Bool := 3 ≤ count_textboxes_in_table t

/-- The paragraph translation inside the flowchart clone: clear ALL runs
and append the translation of the stripped text. -/
def cloneCellParas (env : TransEnv) (c : Cell) : Cell :=
  { c with paras := c.paras.map fun p =>
      if pyStrip p.text ≠ [] ∧ is_chinese p.text then
        ⟨p.runs.map clearRun ++ [mkRun (translate_text env (pyStrip p.text))]⟩
      else p }

/-- The cell loop of `clone_and_translate_flowchart`.  The source's
`return translated_table` sits INSIDE the `for textbox in textboxes`
loop, so after the first textbox of the first textbox-bearing cell is
translated the function returns; the Bool reports that early return. -/
def cloneCellsAux (env : TransEnv) : List Cell → List Cell × Bool
  | [] => ([], false)
  | c :: cs =>
    let c1 := cloneCellParas env c
    match c1.textboxes with
    | [] =>
        let rec1 := cloneCellsAux env cs
        (c1 :: rec1.1, rec1.2)
    | tb :: rest =>
        ({ c1 with textboxes := translate_textbox env tb :: rest } :: cs, true)

/-- The row loop of `clone_and_translate_flowchart` with its early
return. -/
def cloneRowsAux (env : TransEnv) : List (List Cell) → List (List Cell)
  | [] => []
  | r :: rs =>
    let rc := cloneCellsAux env r
    if rc.2 then rc.1 :: rs else rc.1 :: cloneRowsAux env rs

/-- The translated deep clone of a flowchart table; `freshId` models the
fresh element identity produced by `deepcopy`. -/
def clone_translated_table (env : TransEnv) (freshId : Nat) (t : Table) : Table :=
  ⟨freshId, cloneRowsAux env t.rows⟩

/-! ## Step 3: the table pass of `translate_document` -/

/-- Accumulator: (output body, `state.flowchart_original_tables`, next
fresh element id). -/
def step3_fold (env : TransEnv) (acc : List BElem × List Nat × Nat)
    (e : BElem) : List BElem × List Nat × Nat :=
  match e with
  | .tbl t =>
    if is_flowchart_table t then
      (acc.1 ++ [.tbl t, .pbreak, .tbl (clone_translated_table env acc.2.2 t)],
       acc.2.1 ++ [t.id], acc.2.2 + 1)
    else (acc.1 ++ [.tbl (translate_table env t)], acc.2.1, acc.2.2)
  | e => (acc.1 ++ [e], acc.2.1, acc.2.2)

/-- Step 3: for every (pristine) table, clone-and-translate flowchart
tables — inserting the page break and the clone right after the original
and recording the original's identity — and translate the rest in
place. -/
def step3_tables (env : TransEnv) (body : List BElem) (fresh : Nat) :
    List BElem × List Nat × Nat :=
  body.foldl (step3_fold env) ([], [], fresh)

/-- An id strictly larger than every table id of the body, used as the
first fresh clone identity. -/
def maxTableId (body : List BElem) : Nat :=
  (body.map fun e => match e with | .tbl t => t.id | _ => 0).foldr max 0

/-! ## Step 4: headers and footers -/

/-- `translate_header_footer` on one header/footer paragraph. -/
def translate_hf_para (env : TransEnv) (p : Para) : List Para :=
  if pyStrip p.text ≠ [] ∧ is_chinese p.text then
    let translated := translate_text env p.text
    if translated ≠ [] then [p, mkEnglishPara translated] else [p]
  else [p]

/-- `translate_header_footer` on one header/footer table-cell paragraph,
threading the per-table `processed_texts` dedup set. -/
def hf_cell_para (env : TransEnv) (seen : List Str) (p : Para) :
    List Para × List Str :=
  let fullText := pyStrip p.text
  if fullText ≠ [] ∧ is_chinese fullText then
    if fullText ∈ seen then ([p], seen)
    else
      let translated := translate_text env p.text
      if translated ≠ [] then ([p, mkEnglishPara translated], seen ++ [fullText])
      else ([p], seen)
  else ([p], seen)

def hf_paras_fold (env : TransEnv) : List Para → List Str → List Para × List Str
  | [], seen => ([], seen)
  | p :: ps, seen =>
    let hp := hf_cell_para env seen p
    let hrest := hf_paras_fold env ps hp.2
    (hp.1 ++ hrest.1, hrest.2)

def hf_cells_fold (env : TransEnv) : List Cell → List Str → List Cell × List Str
  | [], seen => ([], seen)
  | c :: cs, seen =>
    let hp := hf_paras_fold env c.paras seen
    let hrest := hf_cells_fold env cs hp.2
    ({ c with paras := hp.1 } :: hrest.1, hrest.2)

def hf_rows_fold (env : TransEnv) :
    List (List Cell) → List Str → List (List Cell) × List Str
  | [], seen => ([], seen)
  | r :: rs, seen =>
    let hcells := hf_cells_fold env r seen
    let hrest := hf_rows_fold env rs hcells.2
    (hcells.1 :: hrest.1, hrest.2)

def translate_hf_table (env : TransEnv) (t : Table) : Table :=
  ⟨t.id, (hf_rows_fold env t.rows []).1⟩

/-! ## Step 5: the generic textbox pass -/

/-- One element of the generic textbox pass: textboxes of a table are
translated and normalized unless their nearest enclosing table is a
recorded flowchart original. -/
def translate_textboxes_elem (env : TransEnv) (excluded : List Nat)
    (e : BElem) : BElem :=
  match e with
  | .tbl t =>
      if t.id ∈ excluded then e
      else .tbl ⟨t.id, t.rows.map (List.map fun c =>
        { c with textboxes := c.textboxes.map (translate_textbox env) })⟩
  | e => e

/-- `FlowchartHandler.translate_textboxes_in_doc`: every textbox of the
body is translated and normalized, except those whose nearest enclosing
table is a recorded flowchart original. -/
def translate_textboxes_in_doc (env : TransEnv) (excluded : List Nat)
    (body : List BElem) : List BElem :=
  body.map (translate_textboxes_elem env excluded)

/-! ## The document pipeline -/

/-- A document: its body, and its header/footer paragraphs and tables
(flattened over the sections' non-linked header/footer variants). -/
structure Doc where
  body : List BElem
  hfParas : List Para
  hfTables : List Table
deriving DecidableEq

/-- `DocumentTranslator.translate_document`, steps 1–5 (the later steps
are the out-of-scope cosmetic font passes and empty-paragraph cleanup;
they insert no content and clone no tables). -/
def pipeline (env : TransEnv) (d : Doc) : Doc :=
  let groups := step1_groups (docParas d.body)
  let kb := mkKeyed d.body
  let n := (docParas d.body).length
  let kb2 := (step2_paragraphs env groups kb n).2
  let body2 := unkey kb2
  let s3 := step3_tables env body2 (maxTableId body2 + 1)
  let hf := (d.hfParas.flatMap (translate_hf_para env),
             d.hfTables.map (translate_hf_table env))
  let body5 := translate_textboxes_in_doc env s3.2.1 s3.1
  ⟨body5, hf.1, hf.2⟩

/-- Does any block of the document carry a source-language character? -/
def tableHasChinese (t : Table) : Bool :=
  t.rows.any (·.any fun c =>
    c.paras.any (fun p => is_chinese p.text) ||
    c.textboxes.any (fun tb => tb.paras.any (fun tp => tp.runs.any (fun r => is_chinese r.text))))

def docHasChinese (d : Doc) : Bool :=
  d.body.any (fun e =>
    match e with
    | .par p => is_chinese p.text
    | .tbl t => tableHasChinese t
    | .pbreak => false) ||
  d.hfParas.any (fun p => is_chinese p.text) ||
  d.hfTables.any tableHasChinese

/-- Number of tables in a body. -/
def numTables (body : List BElem) : Nat :=
  (body.filter fun e => match e with | .tbl _ => true | _ => false).length

end DocTranslate

namespace DocTranslate

/-! ## Auxiliary lemmas about the Python string primitives -/

theorem dropWhile_head_false {α : Type} {p : α → Bool} :
    ∀ {l t : List α} {a : α}, l.dropWhile p = a :: t → p a = false := by
  intro l
  induction l with
  | nil => intro t a h; simp at h
  | cons x xs ih =>
    intro t a h
    by_cases hx : p x
    · rw [List.dropWhile_cons, if_pos hx] at h
      exact ih h
    · rw [List.dropWhile_cons, if_neg hx] at h
      cases h
      exact Bool.of_not_eq_true hx

theorem dropWhile_eq_self_of_head {α : Type} {p : α → Bool} {l : List α}
    (h : ∀ a, l.head? = some a → p a = false) : l.dropWhile p = l := by
  cases l with
  | nil => rfl
  | cons x xs =>
    rw [List.dropWhile_cons, if_neg]
    simp [h x rfl]

theorem pyLStrip_idem (l : Str) : pyLStrip (pyLStrip l) = pyLStrip l := by
  unfold pyLStrip
  induction l with
  | nil => rfl
  | cons c t ih =>
    by_cases h : isPySpace c
    · rw [List.dropWhile_cons, if_pos h]
      exact ih
    · rw [List.dropWhile_cons, if_neg h, List.dropWhile_cons, if_neg h]

theorem pyLStrip_pyStrip (l : Str) : pyLStrip (pyStrip l) = pyStrip l := by
  unfold pyStrip
  exact pyLStrip_idem _

theorem pyRStrip_getLast_false {l : Str} {a : Char}
    (h : (pyRStrip l).getLast? = some a) : isPySpace a = false := by
  unfold pyRStrip at h
  rw [List.getLast?_reverse] at h
  rcases hd : l.reverse.dropWhile isPySpace with _ | ⟨x, xs⟩
  · rw [hd] at h; simp at h
  · rw [hd] at h
    simp at h
    subst h
    exact dropWhile_head_false hd

theorem pyStrip_getLast_false {l : Str} {a : Char}
    (h : (pyStrip l).getLast? = some a) : isPySpace a = false := by
  unfold pyStrip pyLStrip at h
  have hsp := List.takeWhile_append_dropWhile isPySpace (pyRStrip l)
  rcases hd : (pyRStrip l).dropWhile isPySpace with _ | ⟨x, xs⟩
  · rw [hd] at h; simp at h
  · apply @pyRStrip_getLast_false l a
    rw [← hsp, List.getLast?_append_of_ne_nil]
    · exact h
    · rw [hd]; simp

theorem pyRStrip_of_getLast_false {l : Str}
    (h : ∀ a, l.getLast? = some a → isPySpace a = false) : pyRStrip l = l := by
  unfold pyRStrip
  rw [dropWhile_eq_self_of_head, List.reverse_reverse]
  intro a ha
  rw [List.head?_reverse] at ha
  exact h a ha

theorem pyStrip_idem (l : Str) : pyStrip (pyStrip l) = pyStrip l := by
  have h1 : pyRStrip (pyStrip l) = pyStrip l :=
    pyRStrip_of_getLast_false (fun a ha => pyStrip_getLast_false ha)
  show pyLStrip (pyRStrip (pyStrip l)) = pyStrip l
  rw [h1]
  exact pyLStrip_pyStrip l

theorem pyRStrip_decomp (l : Str) :
    l = pyRStrip l ++ (l.reverse.takeWhile isPySpace).reverse := by
  conv_lhs => rw [← List.reverse_reverse l,
    ← List.takeWhile_append_dropWhile isPySpace l.reverse]
  rw [List.reverse_append]
  rfl

theorem pyStrip_decomp (l : Str) :
    ∃ lead trail, l = lead ++ pyStrip l ++ trail ∧
      (∀ c ∈ lead, isPySpace c = true) ∧ (∀ c ∈ trail, isPySpace c = true) := by
  refine ⟨(pyRStrip l).takeWhile isPySpace, (l.reverse.takeWhile isPySpace).reverse,
    ?_, ?_, ?_⟩
  · have h1 : List.takeWhile isPySpace (pyRStrip l) ++ pyStrip l = pyRStrip l :=
      List.takeWhile_append_dropWhile isPySpace (pyRStrip l)
    calc l = pyRStrip l ++ (l.reverse.takeWhile isPySpace).reverse :=
            pyRStrip_decomp l
    _ = (List.takeWhile isPySpace (pyRStrip l) ++ pyStrip l) ++
          (l.reverse.takeWhile isPySpace).reverse :=
            congrArg (fun x => x ++ (l.reverse.takeWhile isPySpace).reverse) h1.symm
    _ = List.takeWhile isPySpace (pyRStrip l) ++ pyStrip l ++
          (l.reverse.takeWhile isPySpace).reverse := rfl
  · intro c hc; exact List.mem_takeWhile_imp hc
  · intro c hc
    rw [List.mem_reverse] at hc
    exact List.mem_takeWhile_imp hc

theorem pyStrip_eq_nil_forall {l : Str} (h : pyStrip l = []) :
    ∀ c ∈ l, isPySpace c = true := by
  obtain ⟨lead, trail, hdec, hlead, htrail⟩ := pyStrip_decomp l
  rw [h] at hdec
  intro c hc
  rw [hdec] at hc
  simp at hc
  rcases hc with h1 | h1
  · exact hlead c h1
  · exact htrail c h1

theorem pyStrip_nil : pyStrip ([] : Str) = [] := rfl

theorem ne_nil_of_pyStrip_ne_nil {l : Str} (h : pyStrip l ≠ []) : l ≠ [] := by
  intro hl; subst hl; exact h pyStrip_nil

end DocTranslate

namespace DocTranslate

/-! ## Claim C3: the numbering-prefix extractor -/

/-- **C3** (code bug).  The claim states that `get_step_number` matches
"only digit and dot characters".  The source's 3-segment pattern is
`^(\d+\.\d+.\d+)` with an UNESCAPED middle dot (its own comment documents
the intent `# 1.2.3`), so on `"1.2a3"` the code returns `"1.2a3"`,
which contains the letter `'a'`; the prefix cascade as specified (and as
the comment documents) would return `"1.2"` from the 2-segment pattern. -/
theorem claim3_step_number_unescaped_dot_bug :
    get_step_number "1.2a3".data = "1.2a3".data ∧
    'a' ∈ get_step_number "1.2a3".data ∧
    spec_extract_numbering "1.2a3".data = "1.2".data := by decide

/-! ## Claim C9: backend failure is a soft failure -/

/-- **C9** (confirmed).  When the dictionary lookups miss and the
backend call raises (`env.backend text = none`), `translate_text`
returns the original text unchanged — the failure is absorbed inside
`_translate_with_llm`, so no backend failure aborts the run. -/
theorem claim9_backend_failure_soft_fail (env : TransEnv) (text : Str)
    (hfix : env.fixedMap.find? (fun e => e.1 = pyStrip text) = none)
    (hpcb : check_pcb_terms env (pyStrip text) = none)
    (hbk : env.backend text = none) :
    translate_text env text = text := by
  unfold translate_text
  by_cases hguard : text = [] ∨ pyStrip text = [] ∨ ¬ is_chinese text
  · rw [if_pos hguard]
  · rw [if_neg hguard]
    simp only [hfix, hpcb, Option.map_none']
    unfold translate_with_llm
    rw [hbk]

/-- A backend that always raises, with empty dictionaries. -/
def envNoBackend : TransEnv := ⟨[], [], fun _ => none⟩

/-- Witness for C9 at the concrete Chinese input `"甲"`. -/
theorem claim9_backend_failure_soft_fail_witness :
    translate_text envNoBackend "甲".data = "甲".data :=
  claim9_backend_failure_soft_fail envNoBackend "甲".data (by decide) (by decide) rfl

/-! ## Claim C2: the merge_text rule -/

/-- Group members recorded by the grouping pass: non-empty, with
whitespace-stripped texts. -/
def goodMembers (mems : List GMember) : Prop :=
  mems ≠ [] ∧ ∀ m ∈ mems, pyLStrip m.full_text = m.full_text

/-- A finalized group: good members and `merged_text` as computed by
`merge_group_text`. -/
def goodGroup (g : Group) : Prop :=
  goodMembers g.members ∧ g.merged_text = merge_group_text g.members

def goodState (st : GroupingState) : Prop :=
  (∀ g ∈ st.groups, goodGroup g) ∧
  (match st.current with
   | none => True
   | some (_, mems) => goodMembers mems)

theorem goodState_finalize {st : GroupingState} (h : goodState st) :
    goodState (finalizeCurrent st) := by
  obtain ⟨hg, hc⟩ := h
  unfold finalizeCurrent
  cases hcur : st.current with
  | none => exact ⟨hg, hc⟩
  | some gm =>
    rw [hcur] at hc
    refine ⟨?_, by simp⟩
    intro g hgmem
    simp at hgmem
    rcases hgmem with h1 | h1
    · exact hg g h1
    · subst h1
      exact ⟨hc, rfl⟩

theorem goodState_record {st : GroupingState} (h : goodState st)
    (i : Nat) (raw : Str) :
    goodState (record_long_space_paragraph st i raw) := by
  obtain ⟨hg, hc⟩ := h
  unfold record_long_space_paragraph
  by_cases hab : ¬ (has_long_spaces raw).1
  · rw [if_pos hab]
    exact goodState_finalize ⟨hg, hc⟩
  · rw [if_neg hab]
    by_cases hstep : get_step_number raw ≠ []
    · rw [if_pos hstep]
      have hfin := @goodState_finalize st ⟨hg, hc⟩
      refine ⟨hfin.1, ?_⟩
      show goodMembers [⟨i, pyStrip raw, (has_long_spaces raw).2⟩]
      refine ⟨by simp, ?_⟩
      intro m hm
      simp at hm
      rw [hm]
      exact pyLStrip_pyStrip raw
    · rw [if_neg hstep]
      cases hcur : st.current with
      | some gm =>
        rw [hcur] at hc
        refine ⟨hg, ?_⟩
        show goodMembers (gm.2 ++ [⟨i, pyStrip raw, (has_long_spaces raw).2⟩])
        refine ⟨by simp, ?_⟩
        intro m hm
        simp at hm
        rcases hm with hm | hm
        · exact hc.2 m hm
        · rw [hm]
          exact pyLStrip_pyStrip raw
      | none =>
        refine ⟨hg, ?_⟩
        show goodMembers [⟨i, pyStrip raw, (has_long_spaces raw).2⟩]
        refine ⟨by simp, ?_⟩
        intro m hm
        simp at hm
        rw [hm]
        exact pyLStrip_pyStrip raw

theorem step1_groups_good (paras : List Para) :
    ∀ g ∈ step1_groups paras, goodGroup g := by
  have hfold : ∀ (l : List (Nat × Para)) (st : GroupingState), goodState st →
      goodState (l.foldl
        (fun st ip =>
          if pyStrip ip.2.text ≠ [] ∧ is_chinese ip.2.text then
            record_long_space_paragraph st ip.1 ip.2.text
          else st) st) := by
    intro l
    induction l with
    | nil => intro st h; exact h
    | cons x xs ih =>
      intro st h
      simp only [List.foldl_cons]
      by_cases hx : pyStrip x.2.text ≠ [] ∧ is_chinese x.2.text
      · rw [if_pos hx]
        exact ih _ (goodState_record h x.1 x.2.text)
      · rw [if_neg hx]
        exact ih _ h
  intro g hg
  unfold step1_groups at hg
  have := goodState_finalize (hfold paras.enum ⟨[], none⟩ ⟨by simp, by simp⟩)
  exact this.1 g hg

/-- `merge_group_text` on good members is exactly the claim's rule. -/
theorem merge_group_text_eq {mems : List GMember} (h : goodMembers mems) :
    merge_group_text mems =
      if mems.any (fun m => get_step_number m.full_text ≠ []) then
        (mems.map GMember.full_text).flatten
      else joinSpace (mems.map GMember.full_text) := by
  obtain ⟨hne, hstrip⟩ := h
  unfold merge_group_text
  rw [if_neg hne]
  have hlines : mems.map (fun m => pyLStrip m.full_text) = mems.map GMember.full_text :=
    List.map_congr_left (fun m hm => hstrip m hm)
  rw [hlines]
  by_cases hs : mems.any (fun m => get_step_number m.full_text ≠ [])
  · simp only [hs, if_true]
    cases mems with
    | nil => simp at hne
    | cons m0 rest =>
      simp only [List.map_cons, List.flatten_cons]
      have : rest.map (fun x => pyLStrip (GMember.full_text x)) =
          rest.map GMember.full_text :=
        List.map_congr_left (fun m hm => hstrip m (by simp [hm]))
      rw [List.map_map]
      rw [show ((fun l => pyLStrip l) ∘ GMember.full_text) =
        (fun x => pyLStrip (GMember.full_text x)) from rfl]
      rw [this]
  · simp only [hs, if_false]
    rfl

/-- **C2** (confirmed).  Every finalized group produced by the grouping
pass is non-empty, and its merged text is: when some member's text
carries a numbering prefix, the separator-free concatenation of the
members' (whitespace-stripped) texts in member order; otherwise those
texts joined by single spaces. -/
theorem claim2_merge_rule (paras : List Para) (g : Group)
    (hg : g ∈ step1_groups paras) :
    g.members ≠ [] ∧
    g.merged_text =
      (if g.members.any (fun m => get_step_number m.full_text ≠ []) then
        (g.members.map GMember.full_text).flatten
      else joinSpace (g.members.map GMember.full_text)) := by
  have hgood := step1_groups_good paras g hg
  exact ⟨hgood.1.1, by rw [hgood.2]; exact merge_group_text_eq hgood.1⟩

/-- Scenario-B paragraphs: two indented unnumbered Chinese lines. -/
def paraIndent1 : Para := ⟨[⟨"   注意事項".data, false⟩]⟩

def paraIndent2 : Para := ⟨[⟨"   請小心操作".data, false⟩]⟩

def paraClose : Para := ⟨[⟨"結果：".data, false⟩]⟩

def groupScenB : Group :=
  ⟨1, [⟨0, "注意事項".data, 3⟩, ⟨1, "請小心操作".data, 3⟩], "注意事項 請小心操作".data⟩

/-- Witness for C2 on the Scenario-B group. -/
theorem claim2_merge_rule_witness :
    groupScenB.members ≠ [] ∧
    groupScenB.merged_text =
      (if groupScenB.members.any (fun m => get_step_number m.full_text ≠ []) then
        (groupScenB.members.map GMember.full_text).flatten
      else joinSpace (groupScenB.members.map GMember.full_text)) :=
  claim2_merge_rule [paraIndent1, paraIndent2, paraClose] groupScenB (by decide)

end DocTranslate

namespace DocTranslate

/-! ## Claims C8 and C10: the colon paths -/

def isColonChar (c : Char) : Prop := c = ':' ∨ c = '：'

theorem firstColonSplit_sound :
    ∀ {s b : Str} {k : Char} {a : Str}, firstColonSplit s = some (b, k, a) →
      s = b ++ k :: a ∧ (∀ c ∈ b, ¬ isColonChar c) ∧ isColonChar k := by
  intro s
  induction s with
  | nil => intro b k a h; simp [firstColonSplit] at h
  | cons c rest ih =>
    intro b k a h
    unfold firstColonSplit at h
    by_cases hc : c = ':' ∨ c = '：'
    · rw [if_pos hc] at h
      cases h
      exact ⟨rfl, by simp, hc⟩
    · rw [if_neg hc] at h
      cases hsp : firstColonSplit rest with
      | none => rw [hsp] at h; cases h
      | some bka =>
        rw [hsp] at h
        obtain ⟨b', k', a'⟩ := bka
        cases h
        obtain ⟨h1, h2, h3⟩ := ih hsp
        refine ⟨by rw [h1]; rfl, ?_, h3⟩
        intro x hx
        simp at hx
        rcases hx with hx | hx
        · rw [hx]; exact hc
        · exact h2 x hx

theorem check_colon_format_pyStrip (x : Str) :
    check_colon_format (pyStrip x) = check_colon_format x := by
  unfold check_colon_format
  rw [pyStrip_idem]

theorem isPySpace_half_colon : isPySpace ':' = false := by decide

theorem isPySpace_full_colon : isPySpace '：' = false := by decide

/-- If the stripped text splits as `b ++ k :: a` with blank remainder `a`,
then `a` is actually empty (a stripped text cannot end in whitespace). -/
theorem colon_rest_nil {x b : Str} {k : Char} {a : Str}
    (hsplit : pyStrip x = b ++ k :: a) (ha : pyStrip a = []) : a = [] := by
  by_contra hane
  have hmem : ∀ c ∈ a, isPySpace c = true := pyStrip_eq_nil_forall ha
  obtain ⟨z, hz⟩ : ∃ z, a.getLast? = some z := by
    cases hzz : a.getLast? with
    | none => exact absurd (List.getLast?_eq_none_iff.1 hzz) hane
    | some z => exact ⟨z, rfl⟩
  have hlast : (pyStrip x).getLast? = some z := by
    rw [hsplit]
    rw [List.getLast?_append_of_ne_nil _ (by simp)]
    show (([k] ++ a).getLast? = some z)
    rw [List.getLast?_append_of_ne_nil _ hane]
    exact hz
  have := pyStrip_getLast_false hlast
  rw [hmem z (List.mem_of_mem_getLast? hz)] at this
  cases this

/-- Unpack a successful colon-with-empty-remainder classification. -/
theorem check_colon_no_content_inv {x label rest : Str}
    (h : check_colon_format x = (true, false, label, rest)) :
    ∃ b k, pyStrip x = b ++ [k] ∧ b ≠ [] ∧ (∀ c ∈ b, ¬ isColonChar c) ∧
      isColonChar k ∧ label = pyStrip b := by
  simp only [check_colon_format] at h
  cases hsp : firstColonSplit (pyStrip x) with
  | none => rw [hsp] at h; cases h
  | some bka =>
    obtain ⟨b, k, a⟩ := bka
    rw [hsp] at h
    replace h : (if b ≠ [] ∧ ¬ ('\n' ∈ a) then
        ((true : Bool), (decide (pyStrip a ≠ []) : Bool), pyStrip b, pyStrip a)
      else ((false : Bool), (false : Bool), ([] : Str), ([] : Str))) =
        (true, false, label, rest) := h
    by_cases hguard : b ≠ [] ∧ ¬ ('\n' ∈ a)
    · rw [if_pos hguard] at h
      obtain ⟨hsum, hfree, hcol⟩ := firstColonSplit_sound hsp
      have h2 : (decide (pyStrip a ≠ []) = false) ∧ pyStrip b = label := by
        have := Prod.mk.injEq .. ▸ h
        refine ⟨?_, ?_⟩
        · have := congrArg (fun q => q.2.1) h
          simpa using this
        · have := congrArg (fun q => q.2.2.1) h
          simpa using this
      have hanil : pyStrip a = [] := by
        have := h2.1
        simp at this
        exact this
      have ha : a = [] := colon_rest_nil hsum hanil
      subst ha
      exact ⟨b, k, hsum, hguard.1, hfree, hcol, h2.2.symm⟩
    · rw [if_neg hguard] at h
      cases h

theorem colon_not_pyspace {c : Char} (h : isColonChar c) : isPySpace c = false := by
  rcases h with h | h <;> rw [h] <;> decide

/-- The unique colon of a text whose stripped form is `b ++ [k]` with
colon-free `b`. -/
theorem colon_unique {x b : Str} {k : Char}
    (hsum : pyStrip x = b ++ [k]) (hfree : ∀ c ∈ b, ¬ isColonChar c)
    (_hk : isColonChar k) :
    k ∈ x ∧ ∀ c ∈ x, isColonChar c → c = k := by
  obtain ⟨lead, trail, hdec, hlead, htrail⟩ := pyStrip_decomp x
  rw [hsum] at hdec
  constructor
  · rw [hdec]
    simp
  · intro c hc hccol
    rw [hdec] at hc
    simp at hc
    rcases hc with hc | hc | hc | hc
    · have := hlead c hc
      rw [colon_not_pyspace hccol] at this
      cases this
    · exact absurd hccol (hfree c hc)
    · exact hc
    · have := htrail c hc
      rw [colon_not_pyspace hccol] at this
      cases this

/-- The full-width-colon test of `_translate_colon_no_content` picks
exactly the colon present in the text. -/
theorem orig_colon_eq {x b : Str} {k : Char}
    (hsum : pyStrip x = b ++ [k]) (hfree : ∀ c ∈ b, ¬ isColonChar c)
    (hk : isColonChar k) :
    (if '：' ∈ x then '：' else ':') = k := by
  obtain ⟨hmem, huniq⟩ := colon_unique hsum hfree hk
  rcases hk with hk | hk
  · rw [if_neg]
    · rw [hk]
    · intro hfull
      have := huniq '：' hfull (Or.inr rfl)
      rw [hk] at this
      cases this
  · rw [if_pos]
    · rw [hk]
    · rw [← hk]; exact hmem

theorem flatten_map_clearNonDrawing (rs : List Run)
    (himg : ∀ r ∈ rs, r.drawing = true → r.text = []) :
    ((rs.map clearNonDrawingRun).map Run.text).flatten = [] := by
  rw [List.flatten_eq_nil_iff]
  intro l hl
  simp at hl
  obtain ⟨r, hr, hrl⟩ := hl
  unfold clearNonDrawingRun at hrl
  by_cases hd : r.drawing
  · rw [if_pos hd] at hrl
    rw [← hrl]
    exact himg r hr hd
  · rw [if_neg hd] at hrl
    rw [← hrl]

theorem flatten_map_clearRun (rs : List Run) :
    ((rs.map clearRun).map Run.text).flatten = [] := by
  rw [List.flatten_eq_nil_iff]
  intro l hl
  simp at hl
  obtain ⟨r, hr, hrl⟩ := hl
  rw [← hrl]
  rfl

/-- Appending one text run to cleared runs yields exactly that text. -/
theorem text_of_append_run (A : List Run) (nt : Str)
    (hA : (A.map Run.text).flatten = []) :
    Para.text ⟨A ++ [mkRun nt]⟩ = nt := by
  unfold Para.text
  rw [List.map_append, List.flatten_append, hA]
  simp [mkRun]

/-- **C8** (confirmed).  An ungrouped paragraph classified as
colon-with-empty-remainder is rewritten in place — no sibling is
inserted — as `indent ++ label ++ "(" ++ translate(label) ++ ")" ++ k`,
where `k` is the colon character actually present in the original text
(it occurs in the text, and no other colon character does). -/
theorem claim8_colon_no_content (env : TransEnv) (p : Para) (label rest : Str)
    (hcf : check_colon_format p.text = (true, false, label, rest))
    (himg : ∀ r ∈ p.runs, r.drawing = true → r.text = []) :
    (translate_regular_paragraph env p).2 = none ∧
    ∃ k, isColonChar k ∧ k ∈ p.text ∧
      (∀ c ∈ p.text, isColonChar c → c = k) ∧
      (translate_regular_paragraph env p).1.text =
        List.replicate (p.text.takeWhile isPySpace).length ' ' ++ label ++
          '(' :: translate_text env label ++ ')' :: [k] := by
  obtain ⟨b, k, hsum, hbne, hfree, hk, hlabel⟩ := check_colon_no_content_inv hcf
  have hcfs : check_colon_format (pyStrip p.text) = (true, false, label, rest) := by
    rw [check_colon_format_pyStrip]; exact hcf
  have hmain : translate_regular_paragraph env p =
      (translate_colon_no_content env p p.text label, none) := by
    simp only [translate_regular_paragraph]
    rw [hcfs]
    simp
  refine ⟨by rw [hmain], k, hk, (colon_unique hsum hfree hk).1,
    (colon_unique hsum hfree hk).2, ?_⟩
  rw [hmain]
  show (translate_colon_no_content env p p.text label).text = _
  simp only [translate_colon_no_content]
  have hcolon := orig_colon_eq hsum hfree hk
  by_cases hi : p.runs.any Run.drawing
  · simp only [hi, if_true]
    rw [text_of_append_run _ _ (flatten_map_clearNonDrawing p.runs himg)]
    rw [hcolon]
  · simp only [hi]
    rw [if_neg (by simp)]
    rw [text_of_append_run _ _ (flatten_map_clearRun p.runs)]
    rw [hcolon]

/-- The paragraph `"備註："` used as the C8 witness input. -/
def paraRemark : Para := ⟨[⟨"備註：".data, false⟩]⟩

/-- A backend mapping everything to `"Remarks"`. -/
def envRemarks : TransEnv := ⟨[], [], fun _ => some "Remarks".data⟩

/-- Witness for C8 on Scenario C's `"備註："`. -/
theorem claim8_colon_no_content_witness :
    (translate_regular_paragraph envRemarks paraRemark).2 = none ∧
    ∃ k, isColonChar k ∧ k ∈ paraRemark.text ∧
      (∀ c ∈ paraRemark.text, isColonChar c → c = k) ∧
      (translate_regular_paragraph envRemarks paraRemark).1.text =
        List.replicate (paraRemark.text.takeWhile isPySpace).length ' ' ++
          "備註".data ++ '(' :: translate_text envRemarks "備註".data ++
          ')' :: [k] :=
  claim8_colon_no_content envRemarks paraRemark "備註".data [] (by decide)
    (by decide)

end DocTranslate

namespace DocTranslate

theorem get_step_number_of_head_not_digit {text : Str}
    (h : ∀ c ys, pyLStrip text = c :: ys → c.isDigit = false) :
    get_step_number text = [] := by
  have hdig : takeDigits1 (pyLStrip text) = none := by
    unfold takeDigits1
    rw [if_pos]
    cases hl : pyLStrip text with
    | nil => rfl
    | cons c ys =>
      rw [List.takeWhile_cons, h c ys hl]
      rfl
  have hnd : matchNumDot (pyLStrip text) = none := by
    unfold matchNumDot
    rw [hdig]
  simp only [get_step_number, matchP4seg, matchP3segLoose, matchP2seg,
    matchP1seg, hnd]

theorem colon_not_digit {c : Char} (h : isColonChar c) : c.isDigit = false := by
  rcases h with h | h <;> rw [h] <;> decide

/-- **C10** (confirmed).  A text whose first character after trimming is
a colon makes `check_colon_format` return `(False, False, "", "")` —
the label must be non-empty — and the paragraph is handled by the
no-colon path: the original paragraph is left untouched and one
translated sibling (indent followed by the translation of the stripped
text) is produced for insertion below it. -/
theorem claim10_leading_colon_no_colon_path (env : TransEnv) (p : Para)
    (c : Char) (rest : Str)
    (hh : pyStrip p.text = c :: rest) (hc : isColonChar c) :
    check_colon_format p.text = (false, false, [], []) ∧
    translate_regular_paragraph env p =
      (p, some (mkEnglishPara
        (List.replicate (p.text.takeWhile isPySpace).length ' ' ++
          translate_text env (pyStrip p.text)))) := by
  have hcc : check_colon_format p.text = (false, false, [], []) := by
    simp only [check_colon_format]
    rw [hh]
    have hfc : firstColonSplit (c :: rest) = some ([], c, rest) := by
      unfold firstColonSplit
      rw [if_pos (show c = ':' ∨ c = '：' from hc)]
    rw [hfc]
    simp
  refine ⟨hcc, ?_⟩
  have hcfs : check_colon_format (pyStrip p.text) = (false, false, [], []) := by
    rw [check_colon_format_pyStrip]; exact hcc
  have hstep : get_step_number (pyStrip p.text) = [] := by
    apply get_step_number_of_head_not_digit
    intro c' ys hc'
    rw [pyLStrip_pyStrip, hh] at hc'
    cases hc'
    exact colon_not_digit hc
  simp only [translate_regular_paragraph]
  rw [hcfs]
  simp only [translate_no_colon]
  rw [hstep]
  simp

/-- The paragraph `"：甲"` used as the C10 witness input. -/
def paraLeadColon : Para := ⟨[⟨"：甲".data, false⟩]⟩

/-- A backend mapping everything to `"EN"`. -/
def envEN : TransEnv := ⟨[], [], fun _ => some "EN".data⟩

/-- Witness for C10 on `"：甲"`. -/
theorem claim10_leading_colon_no_colon_path_witness :
    check_colon_format paraLeadColon.text = (false, false, [], []) ∧
    translate_regular_paragraph envEN paraLeadColon =
      (paraLeadColon, some (mkEnglishPara
        (List.replicate (paraLeadColon.text.takeWhile isPySpace).length ' ' ++
          translate_text envEN (pyStrip paraLeadColon.text)))) :=
  claim10_leading_colon_no_colon_path envEN paraLeadColon '：' "甲".data
    (by decide) (Or.inr rfl)

end DocTranslate

namespace DocTranslate

/-! ## Claim C7: numbered multi-item table cells -/

/-- Modelled from the spec (claim C7): strip each item's numbering
prefix, join the items with single spaces, translate the joined string
once, split the translation on the sentence-terminating punctuation (the
period character), re-attach the original item numbers positionally to
the resulting segments, and append any excess translated segments
unlabeled (a shortfall of segments drops the numbering of the unmatched
tail). -/
def spec_composed_translation (env : TransEnv) (texts : List Str) : Str :=
  let contents := texts.map fun t =>
    let s := pyStrip t
    let n := get_step_number s
    if n ≠ [] then extract_content_after_number s n else s
  let numbers := texts.map fun t => get_step_number (pyStrip t)
  let translated := translate_text env (joinSpace contents)
  let segs := ((List.splitOn '.' translated).map pyStrip).filter (· ≠ [])
  let labeled := List.zipWith
    (fun n s => if n ≠ [] then n ++ '.' :: s else s) numbers segs
  joinNL (labeled ++ segs.drop numbers.length)

theorem attachNumbers_eq_zipWith :
    ∀ ns qs : List Str, attachNumbers ns qs =
      List.zipWith (fun n s => if n ≠ [] then n ++ '.' :: s else s) ns qs := by
  intro ns
  induction ns with
  | nil => intro qs; cases qs <;> rfl
  | cons n ns ih =>
    intro qs
    cases qs with
    | nil => rfl
    | cons q qs => simp [attachNumbers, ih]

theorem cond_extend_eq_drop (ns qs : List Str) :
    (if ns.length < qs.length then qs.drop ns.length else []) =
      qs.drop ns.length := by
  by_cases h : ns.length < qs.length
  · rw [if_pos h]
  · rw [if_neg h, Eq.comm, List.drop_eq_nil_of_le (Nat.le_of_not_lt h)]

/-- The code's composed cell translation equals the spec-worded one. -/
theorem numbered_cell_english_eq_spec (env : TransEnv) (qual : List Para) :
    numbered_cell_english env qual =
      spec_composed_translation env (qual.map Para.text) := by
  simp only [numbered_cell_english, spec_composed_translation]
  have hfst : (qual.map fun p =>
      let s := pyStrip p.text
      let n := get_step_number s
      if n ≠ [] then (extract_content_after_number s n, n) else (s, ([] : Str))).map
        Prod.fst =
      (qual.map Para.text).map (fun t =>
        let s := pyStrip t
        let n := get_step_number s
        if n ≠ [] then extract_content_after_number s n else s) := by
    rw [List.map_map, List.map_map]
    apply List.map_congr_left
    intro p _
    simp only [Function.comp]
    by_cases hn : get_step_number (pyStrip p.text) ≠ []
    · rw [if_pos hn, if_pos hn]
    · rw [if_neg hn, if_neg hn]
  have hsnd : (qual.map fun p =>
      let s := pyStrip p.text
      let n := get_step_number s
      if n ≠ [] then (extract_content_after_number s n, n) else (s, ([] : Str))).map
        Prod.snd =
      (qual.map Para.text).map (fun t => get_step_number (pyStrip t)) := by
    rw [List.map_map, List.map_map]
    apply List.map_congr_left
    intro p _
    simp only [Function.comp]
    by_cases hn : get_step_number (pyStrip p.text) ≠ []
    · rw [if_pos hn]
    · rw [if_neg hn]
      simp at hn
      rw [hn]
  rw [hfst, hsnd, attachNumbers_eq_zipWith, cond_extend_eq_drop]

theorem insertAfterLastQualRev_decomp (q e : Para) (hq : qualPara q = true) :
    ∀ l : List Para, (∀ p ∈ l, qualPara p = false) → ∀ rest,
      insertAfterLastQualRev (l ++ q :: rest) e = l ++ e :: q :: rest := by
  intro l
  induction l with
  | nil =>
    intro _ rest
    show insertAfterLastQualRev (q :: rest) e = e :: q :: rest
    unfold insertAfterLastQualRev
    rw [if_pos hq]
  | cons x xs ih =>
    intro hl rest
    show insertAfterLastQualRev (x :: (xs ++ q :: rest)) e = x :: (xs ++ e :: q :: rest)
    unfold insertAfterLastQualRev
    rw [if_neg (by rw [hl x (by simp)]; simp)]
    rw [ih (fun p hp => hl p (by simp [hp])) rest]

theorem insertAfterLastQual_decomp (pre post : List Para) (q e : Para)
    (hq : qualPara q = true) (hpost : ∀ p ∈ post, qualPara p = false) :
    insertAfterLastQual (pre ++ q :: post) e = pre ++ q :: e :: post := by
  unfold insertAfterLastQual
  rw [show (pre ++ q :: post).reverse = post.reverse ++ q :: pre.reverse by
    simp]
  rw [insertAfterLastQualRev_decomp q e hq post.reverse
    (fun p hp => hpost p (List.mem_reverse.1 hp)) pre.reverse]
  simp

/-- **C7 (amended)**.  For a cell holding more than one source-language
paragraph, at least one numbered: the composed multi-line translation —
prefix-stripped items joined by single spaces, translated once, split on
`'.'`, numbers re-attached positionally with excess segments unlabeled
and shortfall numbering dropped — is inserted immediately below the
cell's LAST SOURCE-LANGUAGE paragraph (not the cell's last paragraph). -/
theorem claim7_numbered_cell (env : TransEnv) (c : Cell) (pre post : List Para)
    (q : Para)
    (hc : c.paras = pre ++ q :: post)
    (hq : qualPara q = true)
    (hpost : ∀ p ∈ post, qualPara p = false)
    (hlen : 1 < (c.paras.filter qualPara).length)
    (hnum : (c.paras.filter qualPara).any
      (fun p => get_step_number p.text ≠ []) = true) :
    (translate_table_cell env c).paras =
      pre ++ q :: mkEnglishPara
        (spec_composed_translation env
          ((c.paras.filter qualPara).map Para.text)) :: post := by
  have hqmem : q ∈ c.paras.filter qualPara := by
    rw [List.mem_filter]
    exact ⟨by rw [hc]; simp, hq⟩
  have hne : ¬ (c.paras.filter qualPara = []) := by
    intro h0
    rw [h0] at hqmem
    simp at hqmem
  simp only [translate_table_cell]
  rw [if_neg hne, if_pos ⟨hnum, hlen⟩]
  show insertAfterLastQual c.paras _ = _
  conv_lhs => rw [hc]
  rw [insertAfterLastQual_decomp pre post q _ hq hpost]
  rw [numbered_cell_english_eq_spec, ← hc]

/-- Cell paragraphs for the C7 input: two numbered Chinese items and a
trailing non-source-language note. -/
def paraNumA : Para := ⟨[⟨"1. 甲".data, false⟩]⟩

def paraNumB : Para := ⟨[⟨"2. 乙".data, false⟩]⟩

def paraNote : Para := ⟨[⟨"note".data, false⟩]⟩

def cellWithNote : Cell := ⟨[paraNumA, paraNumB, paraNote], []⟩

/-- A backend translating the merged cell to `"X. Y"`. -/
def envTwoSentences : TransEnv := ⟨[], [], fun _ => some "X. Y".data⟩

/-- **C7** counterexample: with a trailing non-source-language paragraph
in the cell, the composed translation is inserted after the last
source-language paragraph, NOT below the cell's last paragraph as the
claim states. -/
theorem claim7_counterexample :
    (translate_table_cell envTwoSentences cellWithNote).paras =
      [paraNumA, paraNumB, mkEnglishPara "1.X\n2.Y".data, paraNote] ∧
    (translate_table_cell envTwoSentences cellWithNote).paras ≠
      cellWithNote.paras ++ [mkEnglishPara
        (numbered_cell_english envTwoSentences
          (cellWithNote.paras.filter qualPara))] := by decide

/-- Witness for the amended C7 at the concrete cell. -/
theorem claim7_numbered_cell_witness :
    (translate_table_cell envTwoSentences cellWithNote).paras =
      [paraNumA] ++ paraNumB :: mkEnglishPara
        (spec_composed_translation envTwoSentences
          ((cellWithNote.paras.filter qualPara).map Para.text)) :: [paraNote] :=
  claim7_numbered_cell envTwoSentences cellWithNote [paraNumA] [paraNote]
    paraNumB (by decide) (by decide) (by decide) (by decide) (by decide)

end DocTranslate

namespace DocTranslate

/-! ## Claim C4: translation inside the flowchart clone -/

/-- A one-run textbox holding the given text. -/
def mkTextbox (s : Str) : Textbox := ⟨[⟨[⟨s, none⟩], none, none⟩]⟩

def tbFirst : Textbox := mkTextbox "甲".data

def tbSecond : Textbox := mkTextbox "乙".data

def tbThird : Textbox := mkTextbox "丙".data

/-- A flowchart table (3 textboxes ≥ threshold 3): the first cell holds
two textboxes, the second cell one. -/
def flowTable : Table := ⟨0, [[⟨[], [tbFirst, tbSecond]⟩, ⟨[], [tbThird]⟩]]⟩

/-- The translated-and-normalized form of the first textbox. -/
def tbFirstDone : Textbox :=
  ⟨[⟨[⟨"EN".data, some 11⟩], some 130, some "center".data⟩]⟩

/-- **C4** (code bug).  `clone_and_translate_flowchart`'s
`return translated_table` sits inside the `for textbox in textboxes`
loop, so on this flowchart table (classified as such: 3 textboxes) only
the FIRST textbox of the first textbox-bearing cell is translated and
normalized; the second textbox of that cell and the third (in the next
cell) keep their untranslated source-language text, contradicting the
claim that every textbox text node in every cell of the clone is
translated.  (The source's commented-out earlier version of the loop,
and Scenario D of the specification, both translate every textbox.) -/
theorem claim4_clone_translates_only_first_textbox :
    is_flowchart_table flowTable = true ∧
    clone_translated_table envEN 7 flowTable =
      ⟨7, [[⟨[], [tbFirstDone, tbSecond]⟩, ⟨[], [tbThird]⟩]]⟩ ∧
    is_chinese (getTextInParas tbSecond.paras 0) = true ∧
    is_chinese (getTextInParas tbThird.paras 0) = true := by decide

end DocTranslate

namespace DocTranslate

/-! ## Claim C5: the flowchart originals are never mutated -/

theorem step3_fold_split (env : TransEnv) (a : List BElem) (ex : List Nat)
    (f : Nat) (e : BElem) :
    step3_fold env (a, ex, f) e =
      (a ++ (step3_fold env ([], ex, f) e).1, (step3_fold env ([], ex, f) e).2) := by
  cases e with
  | par p => rfl
  | pbreak => rfl
  | tbl t =>
    by_cases h : is_flowchart_table t
    · simp [step3_fold, h]
    · simp [step3_fold, h]

theorem step3_foldl_acc (env : TransEnv) :
    ∀ (l : List BElem) (a : List BElem) (ex : List Nat) (f : Nat),
      l.foldl (step3_fold env) (a, ex, f) =
        (a ++ (l.foldl (step3_fold env) ([], ex, f)).1,
         (l.foldl (step3_fold env) ([], ex, f)).2) := by
  intro l
  induction l with
  | nil => intro a ex f; simp
  | cons e l ih =>
    intro a ex f
    rw [List.foldl_cons, List.foldl_cons, step3_fold_split]
    rcases h1 : step3_fold env ([], ex, f) e with ⟨d, ex', f'⟩
    rw [ih (a ++ d) ex' f', ih d ex' f', List.append_assoc]

theorem step3_foldl_ex_mono (env : TransEnv) :
    ∀ (l : List BElem) (a : List BElem) (ex : List Nat) (f : Nat),
      ∃ d, (l.foldl (step3_fold env) (a, ex, f)).2.1 = ex ++ d := by
  intro l
  induction l with
  | nil => intro a ex f; exact ⟨[], by simp⟩
  | cons e l ih =>
    intro a ex f
    rw [List.foldl_cons]
    cases e with
    | par p => exact ih _ _ _
    | pbreak => exact ih _ _ _
    | tbl t =>
      by_cases h : is_flowchart_table t
      · simp only [step3_fold, h, if_true]
        obtain ⟨d, hd⟩ := ih (a ++ [.tbl t, .pbreak,
          .tbl (clone_translated_table env f t)]) (ex ++ [t.id]) (f + 1)
        exact ⟨[t.id] ++ d, by rw [hd, List.append_assoc]⟩
      · simp only [step3_fold, h, if_false]
        exact ih _ _ _

/-- **C5** (confirmed).  For any body containing a flowchart table `t`:
after the table pass, the original's identity is recorded in the
excluded set; the output contains the original table UNCHANGED, followed
immediately by the inserted page break and then the translated deep
clone (all edits target the clone, whose identity is fresh); and the
later generic textbox pass maps the original table to itself — it skips
every textbox whose enclosing table is in the excluded set — so the
original flowchart's textboxes are never translated by any pass. -/
theorem claim5_flowchart_original_untouched (env : TransEnv)
    (pre post : List BElem) (t : Table) (fresh : Nat)
    (hfc : is_flowchart_table t = true) :
    t.id ∈ (step3_tables env (pre ++ .tbl t :: post) fresh).2.1 ∧
    ∃ pre2 cl post2,
      (step3_tables env (pre ++ .tbl t :: post) fresh).1 =
        pre2 ++ .tbl t :: .pbreak :: .tbl cl :: post2 ∧
      translate_textboxes_in_doc env
          (step3_tables env (pre ++ .tbl t :: post) fresh).2.1
          (step3_tables env (pre ++ .tbl t :: post) fresh).1 =
        translate_textboxes_in_doc env
          (step3_tables env (pre ++ .tbl t :: post) fresh).2.1 pre2 ++
        .tbl t ::
        translate_textboxes_in_doc env
          (step3_tables env (pre ++ .tbl t :: post) fresh).2.1
          (.pbreak :: .tbl cl :: post2) := by
  have hsplit : step3_tables env (pre ++ .tbl t :: post) fresh =
      ((pre.foldl (step3_fold env) ([], [], fresh)).1 ++
         .tbl t :: .pbreak ::
           .tbl (clone_translated_table env
             (pre.foldl (step3_fold env) ([], [], fresh)).2.2 t) ::
         (post.foldl (step3_fold env)
           ([], (pre.foldl (step3_fold env) ([], [], fresh)).2.1 ++ [t.id],
            (pre.foldl (step3_fold env) ([], [], fresh)).2.2 + 1)).1,
       (post.foldl (step3_fold env)
         ([], (pre.foldl (step3_fold env) ([], [], fresh)).2.1 ++ [t.id],
          (pre.foldl (step3_fold env) ([], [], fresh)).2.2 + 1)).2) := by
    unfold step3_tables
    rw [List.foldl_append, List.foldl_cons]
    rcases hA : pre.foldl (step3_fold env) ([], [], fresh) with ⟨a1, e1, f1⟩
    have hstep : step3_fold env (a1, e1, f1) (.tbl t) =
        (a1 ++ [.tbl t, .pbreak, .tbl (clone_translated_table env f1 t)],
         e1 ++ [t.id], f1 + 1) := by
      simp [step3_fold, hfc]
    rw [hstep, step3_foldl_acc]
    simp [List.append_assoc]
  have hexmem : t.id ∈ (step3_tables env (pre ++ .tbl t :: post) fresh).2.1 := by
    rw [hsplit]
    obtain ⟨d, hd⟩ := step3_foldl_ex_mono env post []
      ((pre.foldl (step3_fold env) ([], [], fresh)).2.1 ++ [t.id])
      ((pre.foldl (step3_fold env) ([], [], fresh)).2.2 + 1)
    simp only [hd]
    simp
  refine ⟨hexmem, (pre.foldl (step3_fold env) ([], [], fresh)).1,
    clone_translated_table env (pre.foldl (step3_fold env) ([], [], fresh)).2.2 t,
    (post.foldl (step3_fold env)
      ([], (pre.foldl (step3_fold env) ([], [], fresh)).2.1 ++ [t.id],
       (pre.foldl (step3_fold env) ([], [], fresh)).2.2 + 1)).1, ?_, ?_⟩
  · rw [hsplit]
  · have hbody := congrArg Prod.fst hsplit
    simp only at hbody
    rw [hbody]
    unfold translate_textboxes_in_doc
    rw [List.map_append, List.map_cons]
    have helem : translate_textboxes_elem env
        (step3_tables env (pre ++ .tbl t :: post) fresh).2.1 (.tbl t) =
        .tbl t := by
      simp only [translate_textboxes_elem]
      rw [if_pos hexmem]
    rw [helem]

end DocTranslate

namespace DocTranslate

/-- Witness for C5 on the concrete flowchart table. -/
theorem claim5_flowchart_original_untouched_witness :
    flowTable.id ∈ (step3_tables envEN ([] ++ .tbl flowTable :: []) 1).2.1 ∧
    ∃ pre2 cl post2,
      (step3_tables envEN ([] ++ .tbl flowTable :: []) 1).1 =
        pre2 ++ .tbl flowTable :: .pbreak :: .tbl cl :: post2 ∧
      translate_textboxes_in_doc envEN
          (step3_tables envEN ([] ++ .tbl flowTable :: []) 1).2.1
          (step3_tables envEN ([] ++ .tbl flowTable :: []) 1).1 =
        translate_textboxes_in_doc envEN
          (step3_tables envEN ([] ++ .tbl flowTable :: []) 1).2.1 pre2 ++
        .tbl flowTable ::
        translate_textboxes_in_doc envEN
          (step3_tables envEN ([] ++ .tbl flowTable :: []) 1).2.1
          (.pbreak :: .tbl cl :: post2) :=
  claim5_flowchart_original_untouched envEN [] [] flowTable 1 (by decide)

end DocTranslate

namespace DocTranslate

/-! ## Keyed-body lemmas for the paragraph pass -/

theorem find?_eq_none_of_all {α : Type} {p : α → Bool} {l : List α}
    (h : ∀ e ∈ l, p e = false) : l.find? p = none := by
  rw [List.find?_eq_none]
  intro x hx
  rw [h x hx]
  simp

theorem getParaAt_decomp (pre post : List (Option Nat × BElem)) (i : Nat)
    (p : Para) (hpre : ∀ e ∈ pre, e.1 ≠ some i) :
    getParaAt (pre ++ (some i, .par p) :: post) i = some p := by
  unfold getParaAt
  rw [List.find?_append]
  rw [find?_eq_none_of_all (fun e he => by simp [hpre e he])]
  rw [List.find?_cons_of_pos _ (by simp)]
  rfl

theorem updElem_fst (i : Nat) (f : Para → Para) (e : Option Nat × BElem) :
    (updElem i f e).1 = e.1 := by
  unfold updElem
  by_cases h : e.1 = some i
  · rw [if_pos h]
    rcases e with ⟨k, b⟩
    cases b <;> rfl
  · rw [if_neg h]

theorem updElem_of_ne (i : Nat) (f : Para → Para) (e : Option Nat × BElem)
    (h : ¬ e.1 = some i) : updElem i f e = e := by
  unfold updElem
  rw [if_neg h]

theorem updIdx_no_key (kb : KBody) (i : Nat) (f : Para → Para)
    (h : ∀ e ∈ kb, e.1 ≠ some i) : updIdx kb i f = kb := by
  unfold updIdx
  calc kb.map (updElem i f) = kb.map id :=
        List.map_congr_left (fun e he => updElem_of_ne i f e (h e he))
  _ = kb := List.map_id kb

theorem updIdx_append (a b : KBody) (i : Nat) (f : Para → Para) :
    updIdx (a ++ b) i f = updIdx a i f ++ updIdx b i f :=
  List.map_append _ a b

theorem updIdx_cons_self (e : Para) (rest : KBody) (i : Nat) (f : Para → Para) :
    updIdx ((some i, .par e) :: rest) i f =
      (some i, .par (f e)) :: updIdx rest i f := by
  unfold updIdx
  rw [List.map_cons]
  show (updElem i f (some i, .par e)) :: _ = _
  unfold updElem
  rw [if_pos rfl]

theorem insertAfterIdx_no_key (kb : KBody) (i : Nat) (q : Para)
    (h : ∀ e ∈ kb, e.1 ≠ some i) : insertAfterIdx kb i q = kb := by
  unfold insertAfterIdx
  induction kb with
  | nil => rfl
  | cons x xs ih =>
    rw [List.flatMap_cons, if_neg (h x (by simp))]
    rw [ih (fun e he => h e (by simp [he]))]
    rfl

theorem insertAfterIdx_append (a b : KBody) (i : Nat) (q : Para) :
    insertAfterIdx (a ++ b) i q = insertAfterIdx a i q ++ insertAfterIdx b i q :=
  List.flatMap_append a b _

theorem insertAfterIdx_cons_self (e : BElem) (rest : KBody) (i : Nat) (q : Para) :
    insertAfterIdx ((some i, e) :: rest) i q =
      (some i, e) :: (none, .par q) :: insertAfterIdx rest i q := by
  unfold insertAfterIdx
  rw [List.flatMap_cons, if_pos rfl]
  rfl

theorem find?_key_updIdx (kb : KBody) (i : Nat) (f : Para → Para) (j : Nat) :
    (updIdx kb i f).find? (fun e => e.1 = some j) =
      (kb.find? (fun e => e.1 = some j)).map (updElem i f) := by
  unfold updIdx
  rw [List.find?_map]
  have hp : ((fun e => decide (e.1 = some j)) ∘ updElem i f) =
      (fun e : Option Nat × BElem => decide (e.1 = some j)) := by
    funext e
    simp [Function.comp, updElem_fst]
  rw [hp]

theorem getParaAt_updIdx_ne (kb : KBody) (i j : Nat) (f : Para → Para)
    (h : j ≠ i) : getParaAt (updIdx kb i f) j = getParaAt kb j := by
  unfold getParaAt
  rw [find?_key_updIdx]
  cases hf : kb.find? (fun e => e.1 = some j) with
  | none => rfl
  | some e =>
    have hej : e.1 = some j := by
      have := List.find?_some hf
      simpa using this
    have heq : updElem i f e = e := by
      apply updElem_of_ne
      rw [hej]
      intro h2
      exact h (Option.some.inj h2)
    simp only [Option.map_some']
    rw [heq]

theorem getParaAt_updIdx_self (kb : KBody) (i : Nat) (f : Para → Para) :
    getParaAt (updIdx kb i f) i = (getParaAt kb i).map f := by
  unfold getParaAt
  rw [find?_key_updIdx]
  cases hf : kb.find? (fun e => e.1 = some i) with
  | none => rfl
  | some e =>
    have hei : e.1 = some i := by
      have := List.find?_some hf
      simpa using this
    simp only [Option.map_some']
    unfold updElem
    rw [if_pos hei]
    rcases e with ⟨k, b⟩
    cases b <;> rfl

theorem getParaAt_insertAfterIdx (kb : KBody) (i j : Nat) (q : Para) :
    getParaAt (insertAfterIdx kb i q) j = getParaAt kb j := by
  induction kb with
  | nil => rfl
  | cons x xs ih =>
    unfold getParaAt at ih ⊢
    rw [show insertAfterIdx (x :: xs) i q =
      (if x.1 = some i then [x, (none, .par q)] else [x]) ++
        insertAfterIdx xs i q from List.flatMap_cons ..]
    by_cases hx : x.1 = some i
    · rw [if_pos hx]
      simp only [List.cons_append, List.nil_append]
      by_cases hxj : x.1 = some j
      · rw [List.find?_cons_of_pos _ (by simpa using hxj),
            List.find?_cons_of_pos _ (by simpa using hxj)]
      · rw [List.find?_cons_of_neg _ (by simpa using hxj),
            List.find?_cons_of_neg _ (by simp),
            List.find?_cons_of_neg _ (by simpa using hxj)]
        exact ih
    · rw [if_neg hx]
      simp only [List.cons_append, List.nil_append]
      by_cases hxj : x.1 = some j
      · rw [List.find?_cons_of_pos _ (by simpa using hxj),
            List.find?_cons_of_pos _ (by simpa using hxj)]
      · rw [List.find?_cons_of_neg _ (by simpa using hxj),
            List.find?_cons_of_neg _ (by simpa using hxj)]
        exact ih

end DocTranslate

namespace DocTranslate

/-! ## The clearing fold over non-seed group members -/

theorem clearFold_append (ms : List GMember) :
    ∀ a b : KBody,
      ms.foldl (fun b m => updIdx b m.para_index clear_paragraph_text_keep_images)
        (a ++ b) =
      ms.foldl (fun b m => updIdx b m.para_index clear_paragraph_text_keep_images) a ++
      ms.foldl (fun b m => updIdx b m.para_index clear_paragraph_text_keep_images) b := by
  induction ms with
  | nil => intro a b; rfl
  | cons x xs ih =>
    intro a b
    rw [List.foldl_cons, List.foldl_cons, List.foldl_cons, updIdx_append]
    exact ih _ _

theorem clearFold_fixed (ms : List GMember) :
    ∀ b : KBody, (∀ m ∈ ms, ∀ e ∈ b, e.1 ≠ some m.para_index) →
      ms.foldl (fun b m => updIdx b m.para_index clear_paragraph_text_keep_images) b
        = b := by
  induction ms with
  | nil => intro b _; rfl
  | cons x xs ih =>
    intro b h
    rw [List.foldl_cons, updIdx_no_key b _ _ (fun e he => h x (by simp) e he)]
    exact ih b (fun m hm e he => h m (by simp [hm]) e he)

theorem clearFold_length (ms : List GMember) :
    ∀ b : KBody,
      (ms.foldl (fun b m => updIdx b m.para_index clear_paragraph_text_keep_images)
        b).length = b.length := by
  induction ms with
  | nil => intro b; rfl
  | cons x xs ih =>
    intro b
    rw [List.foldl_cons, ih]
    exact List.length_map b _

theorem getParaAt_clearFold_not_mem (ms : List GMember) (j : Nat)
    (h : ∀ m ∈ ms, m.para_index ≠ j) :
    ∀ b : KBody,
      getParaAt
        (ms.foldl (fun b m => updIdx b m.para_index clear_paragraph_text_keep_images) b)
        j = getParaAt b j := by
  induction ms with
  | nil => intro b; rfl
  | cons x xs ih =>
    intro b
    rw [List.foldl_cons, ih (fun m hm => h m (by simp [hm]))]
    exact getParaAt_updIdx_ne b _ j _ (fun hji => h x (by simp) hji.symm)

theorem getParaAt_clearFold_mem (ms : List GMember)
    (hnd : (ms.map GMember.para_index).Nodup) (m : GMember) (hm : m ∈ ms) :
    ∀ b : KBody,
      getParaAt
        (ms.foldl (fun b m => updIdx b m.para_index clear_paragraph_text_keep_images) b)
        m.para_index =
      (getParaAt b m.para_index).map clear_paragraph_text_keep_images := by
  induction ms with
  | nil => simp at hm
  | cons x xs ih =>
    intro b
    rw [List.map_cons, List.nodup_cons] at hnd
    rw [List.foldl_cons]
    rcases List.mem_cons.1 hm with hmx | hmx
    · subst hmx
      rw [getParaAt_clearFold_not_mem xs m.para_index
        (fun m' hm' hh => hnd.1 (hh ▸ List.mem_map_of_mem GMember.para_index hm'))]
      exact getParaAt_updIdx_self b _ _
    · rw [ih hnd.2 hmx]
      have hne : m.para_index ≠ x.para_index := by
        intro he
        exact hnd.1 (he ▸ List.mem_map_of_mem GMember.para_index hmx)
      rw [getParaAt_updIdx_ne b _ _ _ hne]

/-! ## findBelonging inversion -/

theorem findBelonging_true_inv {groups : List Group} {consumed : List Nat}
    {i : Nat} {g : Group}
    (h : findBelonging groups consumed i = some (g, true)) :
    ∃ m0 tail, g.members = m0 :: tail ∧ m0.para_index = i := by
  unfold findBelonging at h
  cases hf : groups.find? (fun g =>
      ¬ (g.group_id ∈ consumed) ∧ g.members.any (fun m => m.para_index = i)) with
  | none => rw [hf] at h; cases h
  | some g0 =>
    rw [hf] at h
    have hpair := Option.some.inj h
    have hg : g0 = g := congrArg Prod.fst hpair
    have hb := congrArg Prod.snd hpair
    subst hg
    cases hmem : g0.members with
    | nil => rw [hmem] at hb; cases hb
    | cons m0 tail =>
      rw [hmem] at hb
      simp at hb
      exact ⟨m0, tail, rfl, hb⟩

theorem findBelonging_skips {groups : List Group} {consumed : List Nat}
    {j : Nat} {g2 : Group} {b2 : Bool} {gid : Nat} (hmem : gid ∈ consumed)
    (h : findBelonging groups consumed j = some (g2, b2)) :
    g2.group_id ≠ gid := by
  unfold findBelonging at h
  cases hf : groups.find? (fun g =>
      ¬ (g.group_id ∈ consumed) ∧ g.members.any (fun m => m.para_index = j)) with
  | none => rw [hf] at h; cases h
  | some g0 =>
    rw [hf] at h
    have hg : g0 = g2 := congrArg Prod.fst (Option.some.inj h)
    subst hg
    have hpred := List.find?_some hf
    simp at hpred
    intro he
    exact hpred.1 (he ▸ hmem)

end DocTranslate

namespace DocTranslate

/-- **C1 (amended)**.  When the orchestrator reaches the seed of an
unconsumed group: the seed is rewritten with the group's merged text —
prefixed by the original leading-whitespace indent when the seed carries
no Drawing run; when it does carry one, the Drawing runs are left
untouched and the merged text is appended WITHOUT the indent prefix —
exactly one new sibling paragraph holding the indent-prefixed
translation is inserted immediately after the seed, every non-seed
member paragraph is cleared (Drawing runs preserved), and the group id
joins the consumed set, after which no later lookup can return this
group, so it is consumed at most once. -/
theorem claim1_grouped_seed (env : TransEnv) (groups : List Group)
    (consumed : List Nat) (kb : KBody) (pre post : List (Option Nat × BElem))
    (i : Nat) (p : Para) (g : Group)
    (hkb : kb = pre ++ (some i, .par p) :: post)
    (hpre : ∀ e ∈ pre, e.1 ≠ some i)
    (hpost : ∀ e ∈ post, e.1 ≠ some i)
    (hne : pyStrip p.text ≠ [])
    (hch : is_chinese p.text = true)
    (hfb : findBelonging groups consumed i = some (g, true))
    (htne : ∀ m ∈ g.members.tail, m.para_index ≠ i)
    (htnd : (g.members.tail.map GMember.para_index).Nodup) :
    (step2_step env groups (consumed, kb) i).1 = consumed ++ [g.group_id] ∧
    (step2_step env groups (consumed, kb) i).2.length = kb.length + 1 ∧
    (∃ pre2 seed post2,
      (step2_step env groups (consumed, kb) i).2 =
        pre2 ++ (some i, .par seed) ::
          (none, .par (mkEnglishPara
            (List.replicate (p.text.takeWhile isPySpace).length ' ' ++
              pyStrip (translate_text env (groupedPureContent g))))) :: post2 ∧
      pre2.length = pre.length ∧
      (p.runs.any Run.drawing = false →
        seed.text = List.replicate (p.text.takeWhile isPySpace).length ' ' ++
          merge_group_text g.members) ∧
      (p.runs.any Run.drawing = true →
        seed.runs = p.runs.map clearNonDrawingRun ++
          [mkRun (merge_group_text g.members)])) ∧
    (∀ m ∈ g.members.tail,
      getParaAt (step2_step env groups (consumed, kb) i).2 m.para_index =
        (getParaAt kb m.para_index).map clear_paragraph_text_keep_images) ∧
    (∀ j g2 b2,
      findBelonging groups (step2_step env groups (consumed, kb) i).1 j =
        some (g2, b2) → g2.group_id ≠ g.group_id) := by
  have hget : getParaAt kb i = some p := by
    rw [hkb]; exact getParaAt_decomp pre post i p hpre
  have hstep : step2_step env groups (consumed, kb) i =
      translate_grouped_paragraphs env consumed kb i p g := by
    simp only [step2_step, hget]
    rw [if_pos hne]
    simp only [translate_paragraph]
    rw [if_neg (by
      intro hor
      rcases hor with h1 | h1
      · exact hne h1
      · exact h1 hch)]
    rw [hfb]
  rw [hstep]
  simp only [translate_grouped_paragraphs]
  set merged := merge_group_text g.members with hmerged
  set indent : Str := List.replicate (p.text.takeWhile isPySpace).length ' '
    with hindent
  set seed0 := groupedSeedRewrite p indent merged with hseed0
  set engP := mkEnglishPara (indent ++ pyStrip (translate_text env
    (groupedPureContent g))) with hengP
  have h1 : updIdx kb i (fun _ => seed0) =
      pre ++ (some i, .par seed0) :: post := by
    rw [hkb, updIdx_append, updIdx_no_key pre i _ hpre, updIdx_cons_self,
      updIdx_no_key post i _ hpost]
  have h2 : insertAfterIdx (pre ++ (some i, .par seed0) :: post) i engP =
      pre ++ (some i, .par seed0) :: (none, .par engP) :: post := by
    rw [insertAfterIdx_append, insertAfterIdx_no_key pre i _ hpre,
      insertAfterIdx_cons_self, insertAfterIdx_no_key post i _ hpost]
  have hmid1 : ∀ m ∈ g.members.tail,
      ∀ e ∈ ([((some i : Option Nat), BElem.par seed0)] : KBody),
        e.1 ≠ some m.para_index := by
    intro m hm e he
    simp at he
    subst he
    intro hc
    exact htne m hm (Option.some.inj hc).symm
  have hmid2 : ∀ m ∈ g.members.tail,
      ∀ e ∈ ([((none : Option Nat), BElem.par engP)] : KBody),
        e.1 ≠ some m.para_index := by
    intro m hm e he
    simp at he
    subst he
    simp
  have h3 : g.members.tail.foldl
      (fun b m => updIdx b m.para_index clear_paragraph_text_keep_images)
      (pre ++ (some i, .par seed0) :: (none, .par engP) :: post) =
      (g.members.tail.foldl
        (fun b m => updIdx b m.para_index clear_paragraph_text_keep_images) pre) ++
      (some i, .par seed0) :: (none, .par engP) ::
      (g.members.tail.foldl
        (fun b m => updIdx b m.para_index clear_paragraph_text_keep_images) post) := by
    have hsplit : pre ++ (some i, .par seed0) :: (none, .par engP) :: post =
        pre ++ ([((some i : Option Nat), BElem.par seed0)] ++
          ([((none : Option Nat), BElem.par engP)] ++ post)) := by simp
    rw [hsplit, clearFold_append, clearFold_append, clearFold_append]
    rw [clearFold_fixed _ _ hmid1, clearFold_fixed _ _ hmid2]
    simp
  refine ⟨?_, ?_, ?_, ?_, ?_⟩
  · first
    | rfl
    | trivial
  · rw [h1, h2, h3]
    simp only [List.length_append, List.length_cons]
    rw [clearFold_length, clearFold_length, hkb]
    simp only [List.length_append, List.length_cons]
    omega
  · refine ⟨(g.members.tail.foldl
      (fun b m => updIdx b m.para_index clear_paragraph_text_keep_images) pre),
      seed0,
      (g.members.tail.foldl
        (fun b m => updIdx b m.para_index clear_paragraph_text_keep_images) post),
      ?_, ?_, ?_, ?_⟩
    · rw [h1, h2, h3]
    · exact clearFold_length _ pre
    · intro hnd
      rw [hseed0]
      unfold groupedSeedRewrite
      rw [if_neg (by rw [hnd]; simp)]
      exact text_of_append_run _ _ (flatten_map_clearRun p.runs)
    · intro hd
      rw [hseed0]
      unfold groupedSeedRewrite
      rw [if_pos hd]
  · intro m hm
    rw [getParaAt_clearFold_mem g.members.tail htnd m hm,
      getParaAt_insertAfterIdx, getParaAt_updIdx_ne _ _ _ _ (htne m hm)]
  · intro j g2 b2 hfb2
    exact findBelonging_skips (by simp) hfb2

end DocTranslate

namespace DocTranslate

/-- A seed paragraph carrying a Drawing run plus an indented Chinese text
run. -/
def paraSeedDrawing : Para := ⟨[⟨[], true⟩, ⟨" 甲".data, false⟩]⟩

/-- The singleton group the grouping pass makes of it. -/
def groupSeedDrawing : Group := ⟨1, [⟨0, "甲".data, 1⟩], "甲".data⟩

def kbSeedDrawing : KBody := [(some 0, .par paraSeedDrawing)]

/-- **C1** counterexample: on a Drawing-bearing seed the code appends the
merged text WITHOUT the leading-space indent, so the seed text is not
`indent ++ merged_text` as the claim states (the indent here is one
space, and `"甲" ≠ " 甲"`). -/
theorem claim1_counterexample :
    step1_groups [paraSeedDrawing] = [groupSeedDrawing] ∧
    (getParaAt (step2_step envEN [groupSeedDrawing] ([], kbSeedDrawing) 0).2
        0).map Para.text =
      some (merge_group_text groupSeedDrawing.members) ∧
    merge_group_text groupSeedDrawing.members ≠
      List.replicate (paraSeedDrawing.text.takeWhile isPySpace).length ' ' ++
        merge_group_text groupSeedDrawing.members := by decide

/-- A Drawing-free seed paragraph. -/
def paraSeedPlain : Para := ⟨[⟨" 甲".data, false⟩]⟩

def groupSeedPlain : Group := ⟨1, [⟨0, "甲".data, 1⟩], "甲".data⟩

def kbSeedPlain : KBody := [(some 0, .par paraSeedPlain)]

/-- Witness for the amended C1 on a concrete singleton group. -/
theorem claim1_grouped_seed_witness :
    (step2_step envEN [groupSeedPlain] ([], kbSeedPlain) 0).1 =
      [] ++ [groupSeedPlain.group_id] ∧
    (step2_step envEN [groupSeedPlain] ([], kbSeedPlain) 0).2.length =
      kbSeedPlain.length + 1 ∧
    (∃ pre2 seed post2,
      (step2_step envEN [groupSeedPlain] ([], kbSeedPlain) 0).2 =
        pre2 ++ (some 0, .par seed) ::
          (none, .par (mkEnglishPara
            (List.replicate (paraSeedPlain.text.takeWhile isPySpace).length ' ' ++
              pyStrip (translate_text envEN
                (groupedPureContent groupSeedPlain))))) :: post2 ∧
      pre2.length = ([] : List (Option Nat × BElem)).length ∧
      (paraSeedPlain.runs.any Run.drawing = false →
        seed.text =
          List.replicate (paraSeedPlain.text.takeWhile isPySpace).length ' ' ++
            merge_group_text groupSeedPlain.members) ∧
      (paraSeedPlain.runs.any Run.drawing = true →
        seed.runs = paraSeedPlain.runs.map clearNonDrawingRun ++
          [mkRun (merge_group_text groupSeedPlain.members)])) ∧
    (∀ m ∈ groupSeedPlain.members.tail,
      getParaAt (step2_step envEN [groupSeedPlain] ([], kbSeedPlain) 0).2
          m.para_index =
        (getParaAt kbSeedPlain m.para_index).map
          clear_paragraph_text_keep_images) ∧
    (∀ j g2 b2,
      findBelonging [groupSeedPlain]
          (step2_step envEN [groupSeedPlain] ([], kbSeedPlain) 0).1 j =
        some (g2, b2) → g2.group_id ≠ groupSeedPlain.group_id) :=
  claim1_grouped_seed envEN [groupSeedPlain] [] kbSeedPlain [] []
    0 paraSeedPlain groupSeedPlain rfl (by simp) (by simp) (by decide)
    (by decide) (by decide) (by decide) (by decide)

end DocTranslate

namespace DocTranslate

/-! ## Claim C6: a source-language-free document -/

theorem translate_text_non_chinese (env : TransEnv) {text : Str}
    (h : is_chinese text = false) : translate_text env text = text := by
  unfold translate_text
  rw [if_pos (Or.inr (Or.inr (by rw [h]; simp)))]

theorem is_chinese_pyStrip_false {x : Str} (h : is_chinese x = false) :
    is_chinese (pyStrip x) = false := by
  obtain ⟨lead, trail, hdec, _, _⟩ := pyStrip_decomp x
  unfold is_chinese at *
  rw [List.any_eq_false] at *
  intro c hc
  exact h c (by rw [hdec]; simp [hc])

theorem snd_mem_of_mem_enumFrom {α : Type} :
    ∀ {l : List α} {n : Nat} {x : Nat × α}, x ∈ l.enumFrom n → x.2 ∈ l := by
  intro l
  induction l with
  | nil => intro n x h; simp at h
  | cons a t ih =>
    intro n x h
    rw [List.enumFrom_cons] at h
    rcases List.mem_cons.1 h with h1 | h1
    · rw [h1]; simp
    · exact List.mem_cons_of_mem a (ih h1)

theorem step1_groups_nil {paras : List Para}
    (h : ∀ p ∈ paras, is_chinese p.text = false) :
    step1_groups paras = [] := by
  unfold step1_groups
  have hfold : paras.enum.foldl
      (fun st (ip : Nat × Para) =>
        if pyStrip ip.2.text ≠ [] ∧ is_chinese ip.2.text then
          record_long_space_paragraph st ip.1 ip.2.text
        else st)
      ⟨[], none⟩ = ⟨[], none⟩ := by
    have hgen : ∀ (l : List (Nat × Para)) (st : GroupingState),
        (∀ ip ∈ l, ¬ (pyStrip ip.2.text ≠ [] ∧ is_chinese ip.2.text)) →
        l.foldl (fun st (ip : Nat × Para) =>
          if pyStrip ip.2.text ≠ [] ∧ is_chinese ip.2.text then
            record_long_space_paragraph st ip.1 ip.2.text
          else st) st = st := by
      intro l
      induction l with
      | nil => intro st _; rfl
      | cons x xs ih =>
        intro st hl
        rw [List.foldl_cons, if_neg (hl x (by simp))]
        exact ih st (fun ip hip => hl ip (by simp [hip]))
    apply hgen
    intro ip hip hand
    have := h ip.2 (snd_mem_of_mem_enumFrom hip)
    rw [this] at hand
    exact (by simpa using hand.2)
  rw [hfold]
  rfl

theorem mem_mkKeyedAux : ∀ (body : List BElem) (n : Nat)
    (x : Option Nat × BElem), x ∈ mkKeyedAux n body → x.2 ∈ body := by
  intro body
  induction body with
  | nil => intro n x h; simp [mkKeyedAux] at h
  | cons e rest ih =>
    intro n x h
    cases e with
    | par p =>
      rw [show mkKeyedAux n (.par p :: rest) =
        (some n, .par p) :: mkKeyedAux (n + 1) rest from rfl] at h
      rcases List.mem_cons.1 h with h1 | h1
      · rw [h1]; simp
      · exact List.mem_cons_of_mem _ (ih (n + 1) x h1)
    | tbl t =>
      rw [show mkKeyedAux n (.tbl t :: rest) =
        (none, .tbl t) :: mkKeyedAux n rest from rfl] at h
      rcases List.mem_cons.1 h with h1 | h1
      · rw [h1]; simp
      · exact List.mem_cons_of_mem _ (ih n x h1)
    | pbreak =>
      rw [show mkKeyedAux n (.pbreak :: rest) =
        (none, .pbreak) :: mkKeyedAux n rest from rfl] at h
      rcases List.mem_cons.1 h with h1 | h1
      · rw [h1]; simp
      · exact List.mem_cons_of_mem _ (ih n x h1)

theorem unkey_mkKeyed (body : List BElem) : unkey (mkKeyed body) = body := by
  unfold mkKeyed
  have : ∀ (b : List BElem) (n : Nat), unkey (mkKeyedAux n b) = b := by
    intro b
    induction b with
    | nil => intro n; rfl
    | cons e rest ih =>
      intro n
      cases e with
      | par p => show (some n, BElem.par p).2 :: unkey (mkKeyedAux (n + 1) rest) = _
                 rw [ih]
      | tbl t => show (none, BElem.tbl t).2 :: unkey (mkKeyedAux n rest) = _
                 rw [ih]
      | pbreak => show (none, BElem.pbreak).2 :: unkey (mkKeyedAux n rest) = _
                  rw [ih]
  exact this body 0

theorem step2_step_id (env : TransEnv) (groups : List Group)
    (c : List Nat) (kb : KBody) (i : Nat)
    (h : ∀ p : Para, getParaAt kb i = some p → is_chinese p.text = false) :
    step2_step env groups (c, kb) i = (c, kb) := by
  unfold step2_step
  cases hg : getParaAt kb i with
  | none => rfl
  | some p =>
    show (if pyStrip p.text ≠ [] then translate_paragraph env groups c kb i p
      else (c, kb)) = (c, kb)
    by_cases hs : pyStrip p.text ≠ []
    · rw [if_pos hs]
      unfold translate_paragraph
      rw [if_pos (Or.inr (by rw [h p hg]; simp))]
    · rw [if_neg hs]

theorem step2_paragraphs_id (env : TransEnv) (groups : List Group)
    (kb : KBody) (n : Nat)
    (h : ∀ (i : Nat) (p : Para), getParaAt kb i = some p →
      is_chinese p.text = false) :
    step2_paragraphs env groups kb n = ([], kb) := by
  unfold step2_paragraphs
  have : ∀ (l : List Nat) (c : List Nat),
      l.foldl (step2_step env groups) (c, kb) = (c, kb) := by
    intro l
    induction l with
    | nil => intro c; rfl
    | cons x xs ih =>
      intro c
      rw [List.foldl_cons, step2_step_id env groups c kb x (h x)]
      exact ih c
  exact this _ []

end DocTranslate

namespace DocTranslate

theorem translate_table_cell_id (env : TransEnv) (c : Cell)
    (h : ∀ p ∈ c.paras, is_chinese p.text = false) :
    translate_table_cell env c = c := by
  unfold translate_table_cell
  rw [if_pos]
  rw [List.filter_eq_nil_iff]
  intro p hp
  unfold qualPara
  rw [h p hp]
  simp

theorem translate_table_id (env : TransEnv) (t : Table)
    (h : ∀ row ∈ t.rows, ∀ c ∈ row, ∀ p ∈ c.paras, is_chinese p.text = false) :
    translate_table env t = t := by
  unfold translate_table
  have : t.rows.map (List.map (translate_table_cell env)) = t.rows := by
    calc t.rows.map (List.map (translate_table_cell env)) = t.rows.map id := by
          apply List.map_congr_left
          intro row hrow
          calc row.map (translate_table_cell env) = row.map id := by
                apply List.map_congr_left
                intro c hc
                exact translate_table_cell_id env c (h row hrow c hc)
          _ = row := List.map_id row
    _ = t.rows := List.map_id t.rows
  rw [this]

theorem setRunText_self : ∀ (rs : List TRun) (k : Nat),
    setRunText rs k (getRunText rs k) = rs := by
  intro rs
  induction rs with
  | nil => intro k; rfl
  | cons r t ih =>
    intro k
    cases k with
    | zero => rfl
    | succ k2 =>
      show r :: setRunText t k2 (getRunText t k2) = r :: t
      rw [ih]

theorem setTextInParas_self : ∀ (ps : List TPara) (k : Nat),
    setTextInParas ps k (getTextInParas ps k) = ps := by
  intro ps
  induction ps with
  | nil => intro k; rfl
  | cons p t ih =>
    intro k
    unfold setTextInParas getTextInParas
    by_cases hk : k < p.runs.length
    · rw [if_pos hk, if_pos hk, setRunText_self]
    · rw [if_neg hk, if_neg hk, ih]

theorem getRunText_mem : ∀ (rs : List TRun) (k : Nat), k < rs.length →
    ∃ r ∈ rs, getRunText rs k = r.text := by
  intro rs
  induction rs with
  | nil => intro k h; simp at h
  | cons r t ih =>
    intro k h
    cases k with
    | zero => exact ⟨r, by simp, rfl⟩
    | succ k2 =>
      obtain ⟨r2, hr2, he⟩ := ih k2 (by simpa using h)
      exact ⟨r2, by simp [hr2], he⟩

theorem getTextInParas_cases : ∀ (ps : List TPara) (k : Nat),
    getTextInParas ps k = [] ∨
      ∃ p ∈ ps, ∃ r ∈ p.runs, getTextInParas ps k = r.text := by
  intro ps
  induction ps with
  | nil => intro k; exact Or.inl rfl
  | cons p t ih =>
    intro k
    unfold getTextInParas
    by_cases hk : k < p.runs.length
    · rw [if_pos hk]
      obtain ⟨r, hr, he⟩ := getRunText_mem p.runs k hk
      exact Or.inr ⟨p, by simp, r, hr, he⟩
    · rw [if_neg hk]
      rcases ih (k - p.runs.length) with h1 | ⟨p2, hp2, r2, hr2, he2⟩
      · exact Or.inl h1
      · exact Or.inr ⟨p2, by simp [hp2], r2, hr2, he2⟩

theorem translate_textbox_step_id (env : TransEnv) (tb : Textbox) (k : Nat)
    (h : ∀ p ∈ tb.paras, ∀ r ∈ p.runs, is_chinese r.text = false) :
    translate_textbox_step env tb k = tb := by
  unfold translate_textbox_step
  by_cases hs : pyStrip (getTextInParas tb.paras k) ≠ []
  · rw [if_pos hs]
    have hch : is_chinese (getTextInParas tb.paras k) = false := by
      rcases getTextInParas_cases tb.paras k with h1 | ⟨p, hp, r, hr, he⟩
      · rw [h1]; rfl
      · rw [he]; exact h p hp r hr
    rw [translate_text_non_chinese env hch]
    rw [hch]
    rw [if_neg (by simp)]
    rw [if_pos (fun hnil => hs (by rw [hnil]; rfl))]
    rw [setTextInParas_self]
  · rw [if_neg hs]

theorem translate_textbox_id (env : TransEnv) (tb : Textbox)
    (h : ∀ p ∈ tb.paras, ∀ r ∈ p.runs, is_chinese r.text = false) :
    translate_textbox env tb = tb := by
  unfold translate_textbox
  have : ∀ l : List Nat, l.foldl (translate_textbox_step env) tb = tb := by
    intro l
    induction l with
    | nil => rfl
    | cons x xs ih =>
      rw [List.foldl_cons, translate_textbox_step_id env tb x h]
      exact ih
  exact this _

end DocTranslate

namespace DocTranslate

theorem step3_tables_id (env : TransEnv) (body : List BElem) (fresh : Nat)
    (h : ∀ t : Table, .tbl t ∈ body →
      is_flowchart_table t = false ∧ translate_table env t = t) :
    step3_tables env body fresh = (body, [], fresh) := by
  unfold step3_tables
  have hgen : ∀ (l : List BElem) (a : List BElem) (ex : List Nat) (f : Nat),
      (∀ t : Table, .tbl t ∈ l →
        is_flowchart_table t = false ∧ translate_table env t = t) →
      l.foldl (step3_fold env) (a, ex, f) = (a ++ l, ex, f) := by
    intro l
    induction l with
    | nil => intro a ex f _; simp
    | cons e rest ih =>
      intro a ex f hl
      rw [List.foldl_cons]
      cases e with
      | par p =>
        rw [show step3_fold env (a, ex, f) (.par p) =
          (a ++ [.par p], ex, f) from rfl]
        rw [ih _ _ _ (fun t ht => hl t (by simp [ht]))]
        simp
      | pbreak =>
        rw [show step3_fold env (a, ex, f) .pbreak =
          (a ++ [.pbreak], ex, f) from rfl]
        rw [ih _ _ _ (fun t ht => hl t (by simp [ht]))]
        simp
      | tbl t =>
        obtain ⟨hfc, htr⟩ := hl t (by simp)
        have : step3_fold env (a, ex, f) (.tbl t) =
            (a ++ [.tbl (translate_table env t)], ex, f) := by
          simp [step3_fold, hfc]
        rw [this, htr, ih _ _ _ (fun t2 ht2 => hl t2 (by simp [ht2]))]
        simp
  exact hgen body [] [] fresh h

theorem translate_hf_para_id (env : TransEnv) (p : Para)
    (h : is_chinese p.text = false) : translate_hf_para env p = [p] := by
  unfold translate_hf_para
  rw [if_neg (by rw [h]; simp)]

theorem hf_cell_para_id (env : TransEnv) (seen : List Str) (p : Para)
    (h : is_chinese p.text = false) : hf_cell_para env seen p = ([p], seen) := by
  unfold hf_cell_para
  rw [if_neg (by rw [is_chinese_pyStrip_false h]; simp)]

theorem hf_paras_fold_id (env : TransEnv) :
    ∀ (ps : List Para) (seen : List Str),
      (∀ p ∈ ps, is_chinese p.text = false) →
      hf_paras_fold env ps seen = (ps, seen) := by
  intro ps
  induction ps with
  | nil => intro seen _; rfl
  | cons p t ih =>
    intro seen hl
    unfold hf_paras_fold
    rw [hf_cell_para_id env seen p (hl p (by simp))]
    show ([p] ++ (hf_paras_fold env t seen).1, (hf_paras_fold env t seen).2) =
      (p :: t, seen)
    rw [ih seen (fun x hx => hl x (by simp [hx]))]
    rfl

theorem hf_cells_fold_id (env : TransEnv) :
    ∀ (cs : List Cell) (seen : List Str),
      (∀ c ∈ cs, ∀ p ∈ c.paras, is_chinese p.text = false) →
      hf_cells_fold env cs seen = (cs, seen) := by
  intro cs
  induction cs with
  | nil => intro seen _; rfl
  | cons c t ih =>
    intro seen hl
    unfold hf_cells_fold
    rw [hf_paras_fold_id env c.paras seen (hl c (by simp))]
    show ({ paras := c.paras, textboxes := c.textboxes } ::
      (hf_cells_fold env t seen).1, (hf_cells_fold env t seen).2) =
      (c :: t, seen)
    rw [ih seen (fun x hx => hl x (by simp [hx]))]

theorem hf_rows_fold_id (env : TransEnv) :
    ∀ (rs : List (List Cell)) (seen : List Str),
      (∀ r ∈ rs, ∀ c ∈ r, ∀ p ∈ c.paras, is_chinese p.text = false) →
      hf_rows_fold env rs seen = (rs, seen) := by
  intro rs
  induction rs with
  | nil => intro seen _; rfl
  | cons r t ih =>
    intro seen hl
    unfold hf_rows_fold
    rw [hf_cells_fold_id env r seen (hl r (by simp))]
    show (r :: (hf_rows_fold env t seen).1, (hf_rows_fold env t seen).2) =
      (r :: t, seen)
    rw [ih seen (fun x hx => hl x (by simp [hx]))]

theorem translate_hf_table_id (env : TransEnv) (t : Table)
    (h : ∀ r ∈ t.rows, ∀ c ∈ r, ∀ p ∈ c.paras, is_chinese p.text = false) :
    translate_hf_table env t = t := by
  unfold translate_hf_table
  rw [hf_rows_fold_id env t.rows [] h]

theorem translate_textboxes_elem_id (env : TransEnv) (e : BElem)
    (h : ∀ t : Table, e = .tbl t → ∀ r ∈ t.rows, ∀ c ∈ r, ∀ tb ∈ c.textboxes,
      ∀ tp ∈ tb.paras, ∀ rr ∈ tp.runs, is_chinese rr.text = false) :
    translate_textboxes_elem env [] e = e := by
  unfold translate_textboxes_elem
  cases e with
  | par p => rfl
  | pbreak => rfl
  | tbl t =>
    show (if t.id ∈ ([] : List Nat) then BElem.tbl t
      else .tbl ⟨t.id, t.rows.map (List.map fun c =>
        { c with textboxes := c.textboxes.map (translate_textbox env) })⟩) =
      .tbl t
    rw [if_neg (by simp)]
    have : t.rows.map (List.map fun c =>
        { c with textboxes := c.textboxes.map (translate_textbox env) }) =
        t.rows := by
      calc t.rows.map (List.map fun c =>
          { c with textboxes := c.textboxes.map (translate_textbox env) }) =
          t.rows.map id := by
            apply List.map_congr_left
            intro row hrow
            calc row.map (fun c =>
                { c with textboxes := c.textboxes.map (translate_textbox env) }) =
                row.map id := by
                  apply List.map_congr_left
                  intro c hc
                  show { c with textboxes :=
                    c.textboxes.map (translate_textbox env) } = c
                  have : c.textboxes.map (translate_textbox env) = c.textboxes := by
                    calc c.textboxes.map (translate_textbox env) =
                        c.textboxes.map id := by
                          apply List.map_congr_left
                          intro tb htb
                          exact translate_textbox_id env tb
                            (h t rfl row hrow c hc tb htb)
                    _ = c.textboxes := List.map_id _
                  rw [this]
            _ = row := List.map_id row
      _ = t.rows := List.map_id t.rows
    rw [this]

end DocTranslate

namespace DocTranslate

theorem tableHasChinese_parts {t : Table} (h : tableHasChinese t = false) :
    (∀ r ∈ t.rows, ∀ c ∈ r, ∀ p ∈ c.paras, is_chinese p.text = false) ∧
    (∀ r ∈ t.rows, ∀ c ∈ r, ∀ tb ∈ c.textboxes, ∀ tp ∈ tb.paras,
      ∀ rr ∈ tp.runs, is_chinese rr.text = false) := by
  unfold tableHasChinese at h
  simp only [List.any_eq_false, Bool.not_eq_true, Bool.or_eq_false_iff] at h
  constructor
  · intro r hr c hc p hp
    exact (h r hr c hc).1 p hp
  · intro r hr c hc tb htb tp htp rr hrr
    exact (h r hr c hc).2 tb htb tp htp rr hrr

theorem docHasChinese_parts {d : Doc} (h : docHasChinese d = false) :
    (∀ p : Para, .par p ∈ d.body → is_chinese p.text = false) ∧
    (∀ t : Table, .tbl t ∈ d.body → tableHasChinese t = false) ∧
    (∀ p ∈ d.hfParas, is_chinese p.text = false) ∧
    (∀ t ∈ d.hfTables, tableHasChinese t = false) := by
  unfold docHasChinese at h
  rw [Bool.or_eq_false_iff, Bool.or_eq_false_iff] at h
  obtain ⟨⟨h1, h2⟩, h3⟩ := h
  rw [List.any_eq_false] at h1 h2 h3
  refine ⟨?_, ?_, ?_, ?_⟩
  · intro p hp
    have := h1 _ hp
    simpa using this
  · intro t ht
    have := h1 _ ht
    simpa using this
  · intro p hp
    have := h2 p hp
    simpa using this
  · intro t ht
    have := h3 t ht
    simpa using this

theorem hf_flatMap_id (env : TransEnv) :
    ∀ l : List Para, (∀ p ∈ l, is_chinese p.text = false) →
      l.flatMap (translate_hf_para env) = l := by
  intro l
  induction l with
  | nil => intro _; rfl
  | cons p t ih =>
    intro h
    rw [List.flatMap_cons, translate_hf_para_id env p (h p (by simp)),
      ih (fun x hx => h x (by simp [hx]))]
    rfl

/-- **C6 (amended)**.  A document with no source-language character in
any block and no table meeting the flowchart textbox threshold passes
through the whole pipeline unchanged: zero sibling paragraphs are
inserted and zero tables are cloned.  (The threshold proviso is needed:
a source-language-free table with ≥ 3 textboxes is still cloned, and a
page-break paragraph inserted, regardless of language — see the
counterexample.) -/
theorem claim6_no_chinese_pipeline_id (env : TransEnv) (d : Doc)
    (hnc : docHasChinese d = false)
    (hnf : ∀ t : Table, .tbl t ∈ d.body → is_flowchart_table t = false) :
    pipeline env d = d := by
  obtain ⟨hbp, hbt, hhp, hht⟩ := docHasChinese_parts hnc
  have hkb : ∀ (i : Nat) (p : Para), getParaAt (mkKeyed d.body) i = some p →
      is_chinese p.text = false := by
    intro i p hg
    unfold getParaAt at hg
    cases hf : (mkKeyed d.body).find? (fun e => e.1 = some i) with
    | none => rw [hf] at hg; cases hg
    | some e =>
      rw [hf] at hg
      have hmem := List.mem_of_find?_eq_some hf
      have hsnd := mem_mkKeyedAux d.body 0 e hmem
      rcases e with ⟨k, be⟩
      cases be with
      | par p2 =>
        have hp2 : p2 = p := by simpa using hg
        subst hp2
        exact hbp p2 hsnd
      | tbl t2 => cases hg
      | pbreak => cases hg
  have hstep2 := step2_paragraphs_id env (step1_groups (docParas d.body))
    (mkKeyed d.body) (docParas d.body).length hkb
  have hs5 : translate_textboxes_in_doc env [] d.body = d.body := by
    unfold translate_textboxes_in_doc
    calc d.body.map (translate_textboxes_elem env []) = d.body.map id := by
          apply List.map_congr_left
          intro e he
          apply translate_textboxes_elem_id
          intro t het r hr c hc tb htb tp htp rr hrr
          subst het
          exact (tableHasChinese_parts (hbt t he)).2 r hr c hc tb htb tp htp rr hrr
    _ = d.body := List.map_id _
  have hs3 : step3_tables env d.body (maxTableId d.body + 1) =
      (d.body, [], maxTableId d.body + 1) :=
    step3_tables_id env d.body _ (fun t ht =>
      ⟨hnf t ht, translate_table_id env t (tableHasChinese_parts (hbt t ht)).1⟩)
  simp only [pipeline, hstep2, unkey_mkKeyed, hs3, hs5]
  rw [hf_flatMap_id env d.hfParas hhp]
  have hmapt : d.hfTables.map (translate_hf_table env) = d.hfTables := by
    calc d.hfTables.map (translate_hf_table env) = d.hfTables.map id := by
          apply List.map_congr_left
          intro t ht
          exact translate_hf_table_id env t (tableHasChinese_parts (hht t ht)).1
    _ = d.hfTables := List.map_id _
  rw [hmapt]

/-- An empty textbox. -/
def tbEmptyBox : Textbox := ⟨[]⟩

/-- A source-language-free table holding three textboxes. -/
def tableNoChineseFlow : Table := ⟨0, [[⟨[], [tbEmptyBox, tbEmptyBox, tbEmptyBox]⟩]]⟩

/-- A document with zero source-language blocks but one threshold-sized
table. -/
def docNoChineseFlow : Doc := ⟨[.tbl tableNoChineseFlow], [], []⟩

/-- **C6** counterexample: a document with zero source-language blocks
whose only table has 3 textboxes.  The pipeline still clones the table
(2 tables in the output against 1 in the input) and inserts the
page-break paragraph (body grows by 2 elements), refuting "inserts zero
sibling paragraphs and clones zero tables" for Chinese-free documents. -/
theorem claim6_counterexample :
    docHasChinese docNoChineseFlow = false ∧
    numTables docNoChineseFlow.body = 1 ∧
    numTables (pipeline envEN docNoChineseFlow).body = 2 ∧
    (pipeline envEN docNoChineseFlow).body.length =
      docNoChineseFlow.body.length + 2 := by decide

/-- A Chinese-free one-paragraph document. -/
def docPlainAscii : Doc := ⟨[.par ⟨[⟨"abc".data, false⟩]⟩], [], []⟩

/-- Witness for the amended C6 at a concrete Chinese-free document. -/
theorem claim6_no_chinese_pipeline_id_witness :
    pipeline envNoBackend docPlainAscii = docPlainAscii :=
  claim6_no_chinese_pipeline_id envNoBackend docPlainAscii (by decide)
    (by intro t ht; simp [docPlainAscii] at ht)

end DocTranslate
